/-
  Verification of the candidate-ranking pipeline (projeto-ia).

  Shallow embedding of the Python sources:
    - src/parsing/loader.py          (TextNormalizer, remove_accents, _normalize_whitespace)
    - src/parsing/experience_extractor.py
    - src/parsing/education_extractor.py
    - src/parsing/requirements_extractor.py
    - src/skills/extractor.py
    - src/scoring/engine.py

  Conventions of the embedding:
    - Python `str` is modelled as `List Char` (helpers accept `String` via `.data`).
    - Python floats are modelled as `ℚ`; `round(x, n)` is modelled as mathematical
      round-half-to-even at n decimal places (CPython's documented rounding mode;
      binary-float artefacts are outside the model and no theorem below relies on
      a tie-breaking case that differs between the two).
    - `datetime.now().year` is passed explicitly as a `cy : ℤ` (current year) argument.
    - The Unicode tables used by `str.lower` / `unicodedata` are embedded as explicit
      finite tables covering the characters that occur in this development (ASCII,
      the Portuguese accented letters, and a few compatibility characters); every
      other character is left fixed, matching the Unicode data for the inputs used.
    - Regular expressions are hand-translated to recursive matchers; each matcher's
      doc comment quotes the regex it implements.
-/

import Mathlib

unseal Rat.add Rat.mul Rat.inv Rat.sub

namespace ProjetoIA

/-! ## Rounding (Python `round(x, ndigits)` on rationals) -/

/-- Floor of a rational, computably (`num.fdiv den`). -/
def qFloor (q : ℚ) : ℤ := q.num.fdiv q.den

theorem qFloor_eq_floor (q : ℚ) : qFloor q = ⌊q⌋ := by
  rw [Rat.floor_def, qFloor, Int.fdiv_eq_ediv]
  omega

/-- Round to the nearest integer, ties to even (CPython's `round` mode). -/
def roundHE (q : ℚ) : ℤ :=
  if q - qFloor q = 1/2 then (if qFloor q % 2 = 0 then qFloor q else qFloor q + 1)
  else if q - qFloor q < 1/2 then qFloor q else qFloor q + 1

/-- Python `round(q, 2)`. -/
def round2 (q : ℚ) : ℚ := roundHE (q * 100) / 100

/-- Python `round(q, 1)`. -/
def round1 (q : ℚ) : ℚ := roundHE (q * 10) / 10

theorem roundHE_nonneg {q : ℚ} (h : 0 ≤ q) : 0 ≤ roundHE q := by
  unfold roundHE
  have hf : (0 : ℤ) ≤ qFloor q := by
    rw [qFloor_eq_floor]
    exact Int.floor_nonneg.mpr h
  split
  · split <;> omega
  · split <;> omega

theorem roundHE_intCast (n : ℤ) : roundHE (n : ℚ) = n := by
  unfold roundHE
  have hf : qFloor (n : ℚ) = n := by rw [qFloor_eq_floor, Int.floor_intCast]
  rw [hf, sub_self]
  rw [if_neg (by norm_num), if_pos (by norm_num)]

theorem round2_zero : round2 0 = 0 := by
  unfold round2
  rw [show ((0 : ℚ) * 100) = ((0 : ℤ) : ℚ) by norm_num, roundHE_intCast]
  norm_num

theorem round2_idem (q : ℚ) : round2 (round2 q) = round2 q := by
  unfold round2
  rw [div_mul_cancel₀ _ (by norm_num : (100 : ℚ) ≠ 0), roundHE_intCast]

theorem round2_nonneg {q : ℚ} (h : 0 ≤ q) : 0 ≤ round2 q := by
  unfold round2
  have h100 : (0:ℚ) ≤ q * 100 := by linarith
  have := roundHE_nonneg h100
  positivity

theorem round1_nonneg {q : ℚ} (h : 0 ≤ q) : 0 ≤ round1 q := by
  unfold round1
  have h10 : (0:ℚ) ≤ q * 10 := by linarith
  have := roundHE_nonneg h10
  positivity

/-! ## Character classes -/

/-- Python `\s` (ASCII part: space, tab, newline, carriage return, vertical tab,
form feed); also the whitespace set used by `str.strip()` on the texts modelled. -/
def isWsC (c : Char) : Bool :=
  c == ' ' || c == '\t' || c == '\n' || c == '\r' || c == '\x0b' || c == '\x0c'

/-- Just space or tab (the class `[ \t]` of `_normalize_whitespace`). -/
def isSpTab (c : Char) : Bool := c == ' ' || c == '\t'

/-- Accented letters that occur in the repository's Portuguese patterns. -/
def accentedLower : List Char :=
  ['á', 'à', 'â', 'ã', 'é', 'ê', 'í', 'ó', 'ô', 'õ', 'ú', 'ç']

def accentedUpper : List Char :=
  ['Á', 'À', 'Â', 'Ã', 'É', 'Ê', 'Í', 'Ó', 'Ô', 'Õ', 'Ú', 'Ç']

/-- Python `str.lower()`, restricted to the characters of this development:
ASCII `A`-`Z` map to `a`-`z`, the accented uppercase letters map to their
lowercase forms, every other character is fixed (true of the Unicode data for
all characters appearing in the inputs below, e.g. `'℃'.lower() == '℃'`). -/
def toLowerC (c : Char) : Char :=
  match c with
  | 'Á' => 'á' | 'À' => 'à' | 'Â' => 'â' | 'Ã' => 'ã'
  | 'É' => 'é' | 'Ê' => 'ê' | 'Í' => 'í'
  | 'Ó' => 'ó' | 'Ô' => 'ô' | 'Õ' => 'õ'
  | 'Ú' => 'ú' | 'Ç' => 'ç'
  | _ => if c.isUpper then Char.ofNat (c.toNat + 32) else c

/-- Python `\w` on the characters of this development: ASCII alphanumerics,
underscore, and the accented letters (all Unicode letters are word characters
under `re.UNICODE`; only these occur in the modelled inputs). -/
def isWordC (c : Char) : Bool :=
  c.isAlphanum || c == '_' || accentedLower.contains c || accentedUpper.contains c

def pyLower (l : List Char) : List Char := l.map toLowerC

/-! ## Unicode NFKD decomposition and combining classes (finite fragment)

`remove_accents` in `loader.py` is
`"".join(c for c in unicodedata.normalize("NFKD", text) if not unicodedata.combining(c))`.
The table below is the exact Unicode NFKD data for the characters appearing in
this development; characters outside the table decompose to themselves. -/

/-- Combining marks produced by the decompositions in `nfkdTable`
(`unicodedata.combining(c) != 0` exactly for these among the modelled characters). -/
def combiningMarks : List Char :=
  ['̀', '́', '̂', '̃', '̧']

def isCombining (c : Char) : Bool := combiningMarks.contains c

/-- Unicode NFKD decompositions for the characters of this development
(`unicodedata.normalize("NFKD", c)`); e.g. `'℃'` (U+2103) decomposes to
`'°'` (U+00B0) followed by `'C'` (U+0043). -/
def nfkdTable : List (Char × List Char) :=
  [ ('á', ['a', '́']), ('à', ['a', '̀']), ('â', ['a', '̂']),
    ('ã', ['a', '̃']), ('é', ['e', '́']), ('ê', ['e', '̂']),
    ('í', ['i', '́']), ('ó', ['o', '́']), ('ô', ['o', '̂']),
    ('õ', ['o', '̃']), ('ú', ['u', '́']), ('ç', ['c', '̧']),
    ('Á', ['A', '́']), ('À', ['A', '̀']), ('Â', ['A', '̂']),
    ('Ã', ['A', '̃']), ('É', ['E', '́']), ('Ê', ['E', '̂']),
    ('Í', ['I', '́']), ('Ó', ['O', '́']), ('Ô', ['O', '̂']),
    ('Õ', ['O', '̃']), ('Ú', ['U', '́']), ('Ç', ['C', '̧']),
    ('℃', ['°', 'C']), ('ᴷ', ['K']) ]

def assocFind (t : List (Char × List Char)) (c : Char) : Option (List Char) :=
  match t with
  | [] => none
  | (k, v) :: rest => if k = c then some v else assocFind rest c

/-- NFKD decomposition of a single character. -/
def nfkdC (c : Char) : List Char := (assocFind nfkdTable c).getD [c]

/-- `remove_accents` from `loader.py`. -/
def remove_accents (l : List Char) : List Char :=
  ((l.map nfkdC).flatten).filter (fun c => !isCombining c)

/-! ## Whitespace normalization (`_normalize_whitespace` in loader.py) -/

/-- Python `text.split("\n")`. -/
def splitNl (l : List Char) : List (List Char) :=
  match l with
  | [] => [[]]
  | c :: cs =>
    if c = '\n' then [] :: splitNl cs
    else
      match splitNl cs with
      | [] => [[c]]
      | line :: rest => (c :: line) :: rest

/-- Python `"\n".join(lines)`. -/
def joinNl (ls : List (List Char)) : List Char :=
  match ls with
  | [] => []
  | [l] => l
  | l :: rest => l ++ '\n' :: joinNl rest

/-- `re.sub(r"[ \t]+", " ", line)`: replace each maximal run of spaces/tabs by
a single space.  The boolean tracks whether the previous character belonged to
a run already replaced. -/
def squeezeAux (inRun : Bool) (l : List Char) : List Char :=
  match l with
  | [] => []
  | c :: cs =>
    if isSpTab c then
      if inRun then squeezeAux true cs else ' ' :: squeezeAux true cs
    else c :: squeezeAux false cs

def squeeze (l : List Char) : List Char := squeezeAux false l

/-- Python `str.strip()` (whitespace at both ends). -/
def stripWs (l : List Char) : List Char :=
  ((l.dropWhile isWsC).reverse.dropWhile isWsC).reverse

/-- `_normalize_whitespace` from `loader.py`. -/
def normalize_whitespace (l : List Char) : List Char :=
  joinNl ((splitNl l).map (fun line => stripWs (squeeze line)))

/-! ## TextNormalizer (loader.py) -/

structure TextNormalizer where
  lower : Bool
  removeAcc : Bool
  collapseWs : Bool

/-- Default constructor arguments of `TextNormalizer`. -/
def TextNormalizer.default : TextNormalizer := ⟨true, true, true⟩

/-- `TextNormalizer.normalize` from `loader.py`. -/
def TextNormalizer.normalize (n : TextNormalizer) (text : List Char) : List Char :=
  let p1 := if n.lower then pyLower text else text
  let p2 := if n.removeAcc then remove_accents p1 else p1
  if n.collapseWs then normalize_whitespace p2 else p2

/-- `normalize` with the default configuration. -/
def normalizeDefault (text : List Char) : List Char :=
  TextNormalizer.default.normalize text

/-! ### Lemmas: whitespace collapse is idempotent -/

/-- A line with no tab and no two adjacent space/tab characters. -/
def okLine (l : List Char) : Bool :=
  match l with
  | [] => true
  | [c] => !(c == '\t')
  | a :: b :: rest => !(a == '\t') && !(isSpTab a && isSpTab b) && okLine (b :: rest)

def headOk (l : List Char) : Bool :=
  match l with
  | [] => true
  | c :: _ => !isSpTab c

theorem okLine_cons {c : Char} {cs : List Char} (hc : (c == '\t') = false)
    (hadj : cs = [] ∨ isSpTab c = false ∨ headOk cs = true)
    (hcs : okLine cs = true) : okLine (c :: cs) = true := by
  cases cs with
  | nil => simp [okLine, hc]
  | cons d ds =>
    simp only [okLine, Bool.and_eq_true, Bool.not_eq_true']
    refine ⟨⟨hc, ?_⟩, hcs⟩
    rcases hadj with h | h | h
    · exact absurd h (by simp)
    · simp [h]
    · simp only [headOk, Bool.not_eq_true'] at h
      simp [h]

theorem okLine_tail {c : Char} {cs : List Char} (h : okLine (c :: cs) = true) :
    okLine cs = true := by
  cases cs with
  | nil => rfl
  | cons d ds => simp only [okLine, Bool.and_eq_true] at h; exact h.2

theorem okLine_head_not_tab {c : Char} {cs : List Char} (h : okLine (c :: cs) = true) :
    (c == '\t') = false := by
  cases cs with
  | nil => simpa [okLine] using h
  | cons d ds =>
    simp only [okLine, Bool.and_eq_true, Bool.not_eq_true'] at h
    exact h.1.1

theorem okLine_adj {c d : Char} {ds : List Char} (h : okLine (c :: d :: ds) = true) :
    (isSpTab c && isSpTab d) = false := by
  simp only [okLine, Bool.and_eq_true, Bool.not_eq_true'] at h
  exact h.1.2

theorem squeezeAux_cons_sp_false {c : Char} (cs : List Char) (h : isSpTab c = true) :
    squeezeAux false (c :: cs) = ' ' :: squeezeAux true cs := by
  simp [squeezeAux, h]

theorem squeezeAux_cons_sp_true {c : Char} (cs : List Char) (h : isSpTab c = true) :
    squeezeAux true (c :: cs) = squeezeAux true cs := by
  simp [squeezeAux, h]

theorem squeezeAux_cons_nonsp (b : Bool) {c : Char} (cs : List Char)
    (h : isSpTab c = false) : squeezeAux b (c :: cs) = c :: squeezeAux false cs := by
  cases b <;> simp [squeezeAux, h]

/-- `squeezeAux` output satisfies `okLine`; the `true` variant also never starts
with a space/tab. -/
theorem squeezeAux_ok (l : List Char) :
    okLine (squeezeAux false l) = true ∧
    okLine (squeezeAux true l) = true ∧ headOk (squeezeAux true l) = true := by
  induction l with
  | nil => exact ⟨rfl, rfl, rfl⟩
  | cons c cs ih =>
    cases hc : isSpTab c with
    | true =>
      rw [squeezeAux_cons_sp_false cs hc, squeezeAux_cons_sp_true cs hc]
      exact ⟨okLine_cons (by decide) (Or.inr (Or.inr ih.2.2)) ih.2.1, ih.2.1, ih.2.2⟩
    | false =>
      rw [squeezeAux_cons_nonsp false cs hc, squeezeAux_cons_nonsp true cs hc]
      have htab : (c == '\t') = false := by
        simp only [isSpTab, Bool.or_eq_false_iff] at hc
        exact hc.2
      have hok : okLine (c :: squeezeAux false cs) = true :=
        okLine_cons htab (Or.inr (Or.inl hc)) ih.1
      exact ⟨hok, hok, by simp [headOk, hc]⟩

/-- On an `okLine` input, `squeezeAux false` is the identity (and the `true`
variant too when the line does not start with space/tab). -/
theorem squeezeAux_fixed (l : List Char) (h : okLine l = true) :
    squeezeAux false l = l ∧ (headOk l = true → squeezeAux true l = l) := by
  induction l with
  | nil => exact ⟨rfl, fun _ => rfl⟩
  | cons c cs ih =>
    have hcs : okLine cs = true := okLine_tail h
    have htab : (c == '\t') = false := okLine_head_not_tab h
    cases hc : isSpTab c with
    | true =>
      have hsp : c = ' ' := by
        simp only [isSpTab, Bool.or_eq_true, beq_iff_eq] at hc
        rcases hc with h' | h'
        · exact h'
        · rw [h'] at htab; exact absurd htab (by decide)
      have hhead : headOk cs = true := by
        cases cs with
        | nil => rfl
        | cons d ds =>
          have hdone := okLine_adj h
          rw [hc, Bool.true_and] at hdone
          · simp [headOk, hdone]
      have htail : squeezeAux true cs = cs := (ih hcs).2 hhead
      constructor
      · rw [squeezeAux_cons_sp_false cs hc, htail, hsp]
      · intro hh
        simp only [headOk, hc] at hh
        exact absurd hh (by decide)
    | false =>
      have hfix := (ih hcs).1
      exact ⟨by rw [squeezeAux_cons_nonsp false cs hc, hfix],
        fun _ => by rw [squeezeAux_cons_nonsp true cs hc, hfix]⟩

theorem okLine_append_left {s v : List Char} (h : okLine (s ++ v) = true) :
    okLine s = true := by
  induction s with
  | nil => rfl
  | cons c cs ih =>
    cases cs with
    | nil =>
      cases v with
      | nil => exact h
      | cons d ds =>
        simp only [List.cons_append, List.nil_append] at h
        have := okLine_head_not_tab h
        simp [okLine, this]
    | cons d ds =>
      simp only [List.cons_append] at h
      have h2 : okLine (d :: ds ++ v) = true := okLine_tail h
      have hadj := @okLine_adj c d (ds ++ v) (by simpa using h)
      have h3 := ih (by simpa using h2)
      have htab := okLine_head_not_tab h
      cases ds with
      | nil =>
        simp only [okLine, Bool.and_eq_true, Bool.not_eq_true']
        exact ⟨⟨htab, hadj⟩, by simpa [okLine] using h3⟩
      | cons e es =>
        simp only [okLine, Bool.and_eq_true, Bool.not_eq_true'] at h3 ⊢
        exact ⟨⟨htab, hadj⟩, h3⟩

theorem okLine_append_right {u s : List Char} (h : okLine (u ++ s) = true) :
    okLine s = true := by
  induction u with
  | nil => exact h
  | cons c cs ih => exact ih (okLine_tail (by simpa using h))

/-- `stripWs l` is a contiguous infix of `l`. -/
theorem stripWs_decomp (l : List Char) : ∃ u v, l = u ++ stripWs l ++ v := by
  refine ⟨l.takeWhile isWsC, ((l.dropWhile isWsC).reverse.takeWhile isWsC).reverse, ?_⟩
  unfold stripWs
  conv_lhs => rw [← List.takeWhile_append_dropWhile (p := isWsC) (l := l)]
  rw [List.append_assoc]
  congr 1
  conv_lhs => rw [← List.reverse_reverse (l.dropWhile isWsC)]
  conv_lhs =>
    rw [← List.takeWhile_append_dropWhile (p := isWsC) (l := (l.dropWhile isWsC).reverse)]
  rw [List.reverse_append]

theorem okLine_stripWs {l : List Char} (h : okLine l = true) :
    okLine (stripWs l) = true := by
  obtain ⟨u, v, huv⟩ := stripWs_decomp l
  rw [huv] at h
  exact okLine_append_right (okLine_append_left h)

theorem stripL_of_headOk {l : List Char}
    (h : l = [] ∨ ∃ c cs, l = c :: cs ∧ isWsC c = false) : l.dropWhile isWsC = l := by
  rcases h with h | ⟨c, cs, hl, hc⟩
  · simp [h]
  · rw [hl]; simp [List.dropWhile, hc]

theorem length_dropWhile_le_self (p : Char → Bool) (l : List Char) :
    (l.dropWhile p).length ≤ l.length := by
  induction l with
  | nil => exact Nat.le_refl _
  | cons c cs ih =>
    by_cases hc : p c = true
    · simp only [List.dropWhile, hc]
      exact Nat.le_trans ih (by simp)
    · simp [List.dropWhile, hc]

/-- `stripWs` is idempotent. -/
theorem stripWs_idem (l : List Char) : stripWs (stripWs l) = stripWs l := by
  unfold stripWs
  set x := l.dropWhile isWsC with hx
  set s := (x.reverse.dropWhile isWsC).reverse with hs
  have hxhead : x.dropWhile isWsC = x := by rw [hx]; exact List.dropWhile_idempotent _ _
  have hsx : ∃ w, x = s ++ w := by
    refine ⟨(x.reverse.takeWhile isWsC).reverse, ?_⟩
    have h5 : s ++ (x.reverse.takeWhile isWsC).reverse = x := by
      rw [hs, ← List.reverse_append, List.takeWhile_append_dropWhile, List.reverse_reverse]
    exact h5.symm
  have hstripL : s.dropWhile isWsC = s := by
    apply stripL_of_headOk
    cases hse : s with
    | nil => exact Or.inl rfl
    | cons c cs =>
      refine Or.inr ⟨c, cs, rfl, ?_⟩
      obtain ⟨w, hw⟩ := hsx
      rw [hse] at hw
      cases hc : isWsC c with
      | true =>
        exfalso
        rw [hw] at hxhead
        rw [List.cons_append, List.dropWhile_cons, hc, if_pos rfl] at hxhead
        have hlen := congrArg List.length hxhead
        rw [List.length_cons] at hlen
        have hle := length_dropWhile_le_self isWsC (cs ++ w)
        omega
      | false => rfl
  rw [hstripL, hs, List.reverse_reverse, List.dropWhile_idempotent]

/-- One collapsed line is a fixed point of collapsing again. -/
theorem collapseLine_idem (l : List Char) :
    stripWs (squeeze (stripWs (squeeze l))) = stripWs (squeeze l) := by
  have h1 : okLine (squeeze l) = true := (squeezeAux_ok l).1
  have h2 : okLine (stripWs (squeeze l)) = true := okLine_stripWs h1
  have h3 : squeeze (stripWs (squeeze l)) = stripWs (squeeze l) :=
    (squeezeAux_fixed _ h2).1
  rw [h3, stripWs_idem]

/-! ### Lemmas: split/join on newlines -/

theorem splitNl_ne_nil (l : List Char) : splitNl l ≠ [] := by
  cases l with
  | nil => simp [splitNl]
  | cons c cs =>
    by_cases hc : c = '\n'
    · simp [splitNl, hc]
    · simp only [splitNl, if_neg hc]
      cases splitNl cs <;> simp

theorem mem_splitNl_no_nl {l : List Char} :
    ∀ part ∈ splitNl l, '\n' ∉ part := by
  induction l with
  | nil => intro part hp; simp [splitNl] at hp; simp [hp]
  | cons c cs ih =>
    intro part hp
    by_cases hc : c = '\n'
    · simp only [splitNl, if_pos hc, List.mem_cons] at hp
      rcases hp with hp | hp
      · simp [hp]
      · exact ih part hp
    · simp only [splitNl, if_neg hc] at hp
      cases hsc : splitNl cs with
      | nil => exact absurd hsc (splitNl_ne_nil cs)
      | cons hd tl =>
        rw [hsc] at hp
        simp only [List.mem_cons] at hp
        rcases hp with hp | hp
        · subst hp
          intro hmem
          rcases List.mem_cons.mp hmem with h | h
          · exact hc h.symm
          · exact ih hd (by rw [hsc]; exact List.mem_cons_self _ _) h
        · exact ih part (by rw [hsc]; exact List.mem_cons_of_mem _ hp)

theorem mem_of_mem_splitNl {l part : List Char} {c : Char}
    (hp : part ∈ splitNl l) (hc : c ∈ part) : c ∈ l := by
  induction l generalizing part with
  | nil => simp [splitNl] at hp; rw [hp] at hc; simp at hc
  | cons a as ih =>
    by_cases ha : a = '\n'
    · simp only [splitNl, if_pos ha, List.mem_cons] at hp
      rcases hp with hp | hp
      · rw [hp] at hc; simp at hc
      · exact List.mem_cons_of_mem _ (ih hp hc)
    · simp only [splitNl, if_neg ha] at hp
      cases hsc : splitNl as with
      | nil => exact absurd hsc (splitNl_ne_nil as)
      | cons hd tl =>
        rw [hsc] at hp
        simp only [List.mem_cons] at hp
        rcases hp with hp | hp
        · subst hp
          rcases List.mem_cons.mp hc with h | h
          · exact h ▸ List.mem_cons_self _ _
          · exact List.mem_cons_of_mem _
              (@ih hd (by rw [hsc]; exact List.mem_cons_self _ _) h)
        · exact List.mem_cons_of_mem _
            (@ih part (by rw [hsc]; exact List.mem_cons_of_mem _ hp) hc)

theorem splitNl_of_no_nl {l : List Char} (h : '\n' ∉ l) : splitNl l = [l] := by
  induction l with
  | nil => rfl
  | cons c cs ih =>
    have hc : ¬c = '\n' := fun hcc => h (hcc ▸ List.mem_cons_self _ _)
    have hcs : '\n' ∉ cs := fun hmem => h (List.mem_cons_of_mem _ hmem)
    simp only [splitNl, if_neg hc, ih hcs]

theorem splitNl_append_nl {a t : List Char} (h : '\n' ∉ a) :
    splitNl (a ++ '\n' :: t) = a :: splitNl t := by
  induction a with
  | nil => simp [splitNl]
  | cons c cs ih =>
    have hc : ¬c = '\n' := fun hcc => h (hcc ▸ List.mem_cons_self _ _)
    have hcs : '\n' ∉ cs := fun hmem => h (List.mem_cons_of_mem _ hmem)
    show splitNl (c :: (cs ++ '\n' :: t)) = (c :: cs) :: splitNl t
    simp only [splitNl, if_neg hc, ih hcs]

theorem splitNl_joinNl {ls : List (List Char)} (hne : ls ≠ [])
    (hnl : ∀ p ∈ ls, '\n' ∉ p) : splitNl (joinNl ls) = ls := by
  induction ls with
  | nil => exact absurd rfl hne
  | cons p rest ih =>
    cases rest with
    | nil =>
      show splitNl (joinNl [p]) = [p]
      rw [show joinNl [p] = p from rfl]
      exact splitNl_of_no_nl (hnl p (List.mem_cons_self _ _))
    | cons q qs =>
      show splitNl (p ++ '\n' :: joinNl (q :: qs)) = p :: q :: qs
      rw [splitNl_append_nl (hnl p (List.mem_cons_self _ _))]
      rw [ih (by simp) (fun r hr => hnl r (List.mem_cons_of_mem _ hr))]

theorem mem_joinNl {ls : List (List Char)} {c : Char} (h : c ∈ joinNl ls) :
    c = '\n' ∨ ∃ p ∈ ls, c ∈ p := by
  induction ls with
  | nil => simp [joinNl] at h
  | cons p rest ih =>
    cases rest with
    | nil =>
      right
      exact ⟨p, List.mem_cons_self _ _, h⟩
    | cons q qs =>
      rw [show joinNl (p :: q :: qs) = p ++ '\n' :: joinNl (q :: qs) from rfl] at h
      rcases List.mem_append.mp h with h | h
      · exact Or.inr ⟨p, List.mem_cons_self _ _, h⟩
      · rcases List.mem_cons.mp h with h | h
        · exact Or.inl h
        · rcases ih h with h | ⟨r, hr, hcr⟩
          · exact Or.inl h
          · exact Or.inr ⟨r, List.mem_cons_of_mem _ hr, hcr⟩

theorem mem_squeezeAux {l : List Char} {b : Bool} {c : Char}
    (h : c ∈ squeezeAux b l) : c ∈ l ∨ c = ' ' := by
  induction l generalizing b with
  | nil => simp [squeezeAux] at h
  | cons a as ih =>
    cases ha : isSpTab a with
    | true =>
      cases b with
      | false =>
        rw [squeezeAux_cons_sp_false as ha] at h
        rcases List.mem_cons.mp h with h | h
        · exact Or.inr h
        · rcases ih h with h | h
          · exact Or.inl (List.mem_cons_of_mem _ h)
          · exact Or.inr h
      | true =>
        rw [squeezeAux_cons_sp_true as ha] at h
        rcases ih h with h | h
        · exact Or.inl (List.mem_cons_of_mem _ h)
        · exact Or.inr h
    | false =>
      rw [squeezeAux_cons_nonsp b as ha] at h
      rcases List.mem_cons.mp h with h | h
      · exact Or.inl (h ▸ List.mem_cons_self _ _)
      · rcases ih h with h | h
        · exact Or.inl (List.mem_cons_of_mem _ h)
        · exact Or.inr h

theorem mem_stripWs {l : List Char} {c : Char} (h : c ∈ stripWs l) : c ∈ l := by
  obtain ⟨u, v, huv⟩ := stripWs_decomp l
  rw [huv]
  simp only [List.mem_append]
  exact Or.inl (Or.inr h)

/-- `_normalize_whitespace` is idempotent. -/
theorem normalize_whitespace_idem (l : List Char) :
    normalize_whitespace (normalize_whitespace l) = normalize_whitespace l := by
  unfold normalize_whitespace
  have hsplit : splitNl (joinNl ((splitNl l).map (fun line => stripWs (squeeze line)))) =
      (splitNl l).map (fun line => stripWs (squeeze line)) := by
    apply splitNl_joinNl
    · intro hmap
      exact splitNl_ne_nil l (List.map_eq_nil_iff.mp hmap)
    · intro p hp
      rcases List.mem_map.mp hp with ⟨part, hpart, heq⟩
      intro hnl
      rw [← heq] at hnl
      have h1 := mem_stripWs hnl
      rcases mem_squeezeAux h1 with h2 | h2
      · exact mem_splitNl_no_nl part hpart h2
      · exact absurd h2 (by decide)
  rw [hsplit, List.map_map]
  congr 1
  apply List.map_congr_left
  intro part _
  exact collapseLine_idem part

theorem mem_normalize_whitespace {l : List Char} {c : Char}
    (h : c ∈ normalize_whitespace l) : c ∈ l ∨ c = ' ' ∨ c = '\n' := by
  unfold normalize_whitespace at h
  rcases mem_joinNl h with h | ⟨p, hp, hcp⟩
  · exact Or.inr (Or.inr h)
  · rcases List.mem_map.mp hp with ⟨part, hpart, heq⟩
    rw [← heq] at hcp
    rcases mem_squeezeAux (mem_stripWs hcp) with h2 | h2
    · exact Or.inl (mem_of_mem_splitNl hpart h2)
    · exact Or.inr (Or.inl h2)

/-! ### Lemmas: accent removal -/

theorem assocFind_mem {t : List (Char × List Char)} {c : Char} {v : List Char}
    (h : assocFind t c = some v) : (c, v) ∈ t := by
  induction t with
  | nil => simp [assocFind] at h
  | cons p rest ih =>
    obtain ⟨k, w⟩ := p
    by_cases hk : k = c
    · simp only [assocFind, if_pos hk] at h
      have hw : w = v := Option.some_inj.mp h
      subst hk; subst hw
      exact List.mem_cons_self _ _
    · simp only [assocFind, if_neg hk] at h
      exact List.mem_cons_of_mem _ (ih h)

/-- Every non-combining character produced by an NFKD decomposition is itself
NFKD-stable (true of the Unicode data and checkable on the embedded table). -/
theorem nfkd_stable {c d : Char} (hd : d ∈ nfkdC c) (hcomb : isCombining d = false) :
    nfkdC d = [d] := by
  unfold nfkdC at hd
  cases hfind : assocFind nfkdTable c with
  | none =>
    rw [hfind] at hd
    simp only [Option.getD_none, List.mem_singleton] at hd
    subst hd
    unfold nfkdC
    rw [hfind]
    rfl
  | some v =>
    rw [hfind] at hd
    simp only [Option.getD_some] at hd
    have hmem : (c, v) ∈ nfkdTable := assocFind_mem hfind
    have htable : nfkdTable.all
        (fun p => p.2.all (fun d => isCombining d || (assocFind nfkdTable d).isNone)) = true := by
      decide
    rw [List.all_eq_true] at htable
    have hv := htable (c, v) hmem
    rw [List.all_eq_true] at hv
    have hdv := hv d hd
    rw [hcomb] at hdv
    simp only [Bool.false_or, Option.isNone_iff_eq_none] at hdv
    unfold nfkdC
    rw [hdv]
    rfl

theorem mem_remove_accents {l : List Char} {c : Char} (h : c ∈ remove_accents l) :
    (∃ d ∈ l, c ∈ nfkdC d) ∧ isCombining c = false := by
  unfold remove_accents at h
  rw [List.mem_filter] at h
  obtain ⟨hmem, hcomb⟩ := h
  rw [List.mem_flatten] at hmem
  obtain ⟨sub, hsub, hcsub⟩ := hmem
  rcases List.mem_map.mp hsub with ⟨d, hd, heq⟩
  exact ⟨⟨d, hd, heq ▸ hcsub⟩, by simpa using hcomb⟩

theorem remove_accents_fixed {l : List Char}
    (h : ∀ c ∈ l, nfkdC c = [c] ∧ isCombining c = false) :
    remove_accents l = l := by
  induction l with
  | nil => rfl
  | cons c cs ih =>
    have hc := h c (List.mem_cons_self _ _)
    have hcs := ih (fun d hd => h d (List.mem_cons_of_mem _ hd))
    unfold remove_accents at hcs ⊢
    simp only [List.map_cons, List.flatten_cons, hc.1, List.filter_append]
    rw [show List.filter (fun c => !isCombining c) [c] = [c] by simp [hc.2]]
    rw [hcs]
    rfl

theorem map_eq_self_of_fixed {l : List Char} {f : Char → Char}
    (h : ∀ c ∈ l, f c = c) : l.map f = l := by
  induction l with
  | nil => rfl
  | cons c cs ih =>
    rw [List.map_cons, h c (List.mem_cons_self _ _),
      ih (fun d hd => h d (List.mem_cons_of_mem _ hd))]

theorem normalizeDefault_eq (t : List Char) :
    normalizeDefault t = normalize_whitespace (remove_accents (pyLower t)) := rfl

/-- C9 counterexample: `normalize` with the default configuration is NOT
idempotent for every text.  For `T = "℃"`, lowercasing leaves `'℃'` fixed,
NFKD decomposes it to `"°C"` (reintroducing an uppercase letter after the
lowercase step), so `normalize(T) = "°C"` while
`normalize(normalize(T)) = "°c"`. -/
theorem C9_counterexample :
    normalizeDefault (normalizeDefault ("℃".data)) ≠ normalizeDefault ("℃".data) := by
  decide

/-- C9 (amended): `normalize` with the default configuration (lowercase,
accent removal, whitespace collapse all enabled) is idempotent for every text
`T` such that lowercasing fixes every character of `normalize(T)` — in
particular for all ASCII and Portuguese-accented inputs.  (The unrestricted
claim fails because NFKD compatibility decomposition can reintroduce
uppercase characters after the lowercase step, see the counterexample.) -/
theorem C9_normalize_idem (T : List Char)
    (H : ∀ c ∈ normalizeDefault T, toLowerC c = c) :
    normalizeDefault (normalizeDefault T) = normalizeDefault T := by
  have hchars : ∀ c ∈ normalizeDefault T, nfkdC c = [c] ∧ isCombining c = false := by
    intro c hc
    rw [normalizeDefault_eq] at hc
    rcases mem_normalize_whitespace hc with h | h | h
    · obtain ⟨⟨d, _, hcd⟩, hcomb⟩ := mem_remove_accents h
      exact ⟨nfkd_stable hcd hcomb, hcomb⟩
    · subst h; exact ⟨by decide, by decide⟩
    · subst h; exact ⟨by decide, by decide⟩
  calc normalizeDefault (normalizeDefault T)
      = normalize_whitespace (remove_accents (pyLower (normalizeDefault T))) :=
        normalizeDefault_eq _
    _ = normalize_whitespace (remove_accents (normalizeDefault T)) := by
        rw [show pyLower (normalizeDefault T) = normalizeDefault T from
          map_eq_self_of_fixed H]
    _ = normalize_whitespace (normalizeDefault T) := by
        rw [remove_accents_fixed hchars]
    _ = normalizeDefault T := by
        rw [normalizeDefault_eq T]
        exact normalize_whitespace_idem _

/-- C9 witness: the amended idempotence theorem applied to a concrete
accented, multi-space input. -/
theorem C9_witness :
    (∀ c ∈ normalizeDefault ("Olá  Mundo\tÇa".data), toLowerC c = c) ∧
    normalizeDefault (normalizeDefault ("Olá  Mundo\tÇa".data)) =
      normalizeDefault ("Olá  Mundo\tÇa".data) :=
  ⟨by decide, C9_normalize_idem _ (by decide)⟩

/-! ## Generic helpers (Python dict / `in` / number parsing) -/

/-- Association-list lookup (`dict.get` / `dict[k]`). -/
def alookup {α β : Type} [DecidableEq α] : List (α × β) → α → Option β
  | [], _ => none
  | (k, v) :: rest, key => if k = key then some v else alookup rest key

/-- Python `dict[k] = v`: overwrite an existing key in place, else append. -/
def dictInsert {α β : Type} [DecidableEq α] : List (α × β) → α → β → List (α × β)
  | [], key, v => [(key, v)]
  | (k, w) :: rest, key, v =>
    if k = key then (key, v) :: rest else (k, w) :: dictInsert rest key v

/-- Python `dict.setdefault(k, v)`. -/
def dictSetdefault {α β : Type} [DecidableEq α]
    (d : List (α × β)) (key : α) (v : β) : List (α × β) :=
  if (alookup d key).isSome then d else d ++ [(key, v)]

/-- `p` is a (case-sensitive) prefix of `l`. -/
def isPrefOf : List Char → List Char → Bool
  | [], _ => true
  | _ :: _, [] => false
  | a :: as, b :: bs => a == b && isPrefOf as bs

/-- `p` (given lowercase) is a case-insensitive prefix of `l`
(re.IGNORECASE via `toLowerC`). -/
def isPrefCI : List Char → List Char → Bool
  | [], _ => true
  | _ :: _, [] => false
  | a :: as, b :: bs => a == toLowerC b && isPrefCI as bs

/-- Python `sub in hay` (substring containment). -/
def containsSub (hay sub : List Char) : Bool :=
  match hay with
  | [] => sub.isEmpty
  | _ :: rest => isPrefOf sub hay || containsSub rest sub

def digitVal (c : Char) : Nat := c.toNat - '0'.toNat

def digitsToNat (l : List Char) : Nat := l.foldl (fun a c => a * 10 + digitVal c) 0

/-! ## Data model (src/core/models.py) — fields used by the claims -/

structure Skill where
  name : List Char
  category : List Char
  confidence : ℚ
  source : List Char
deriving DecidableEq

structure Experience where
  role : List Char
  company : Option (List Char)
  duration : Option (List Char)
  description : Option (List Char)
deriving DecidableEq

structure Education where
  degree : List Char
  institution : Option (List Char)
  completion_year : Option (List Char)
  status : List Char
deriving DecidableEq

structure JobRequirement where
  skill : List Char
  importance : List Char
  weight : ℚ
  category : List Char
deriving DecidableEq

structure JobProfile where
  title : List Char
  description : List Char
  raw_text : List Char
  requirements : List JobRequirement
deriving DecidableEq

/-- The four category entries of `score_breakdown` plus the two detail dicts. -/
structure ScoreBreakdown where
  hard_skills : ℚ
  soft_skills : ℚ
  experience : ℚ
  education : ℚ
  hard_skills_detail : List (List Char × ℚ)
  soft_skills_detail : List (List Char × ℚ)
deriving DecidableEq

structure Candidate where
  name : List Char
  raw_text : List Char
  normalized_text : Option (List Char)
  hard_skills : List Skill
  soft_skills : List Skill
  experiences : List Experience
  education : List Education
  score : ℚ
  score_breakdown : ScoreBreakdown
deriving DecidableEq

/-! ## Date / duration matchers (experience_extractor.py)

`DURATION_PATTERN = (?P<years>\d+(?:[.,]\d+)?)\s*(?:anos?|years?)` and
`DATE_PATTERN = (?P<start>(?:MONTH[\s/.-]*)?\d{4}|\d{4})\s*(?:[-–—]|até|a|to)\s*`
`(?P<end>(?:MONTH[\s/.-]*)?\d{4}|\d{4}|atual|present|current|ongoing)`,
both with `re.IGNORECASE`.  The matchers below implement leftmost search with
the regex's ordered alternation; the only backtracking these patterns can
perform across sub-pattern boundaries cannot change the outcome (the character
following each greedy sub-match can never also start the next sub-pattern), so
greedy no-backtrack scanning is faithful. -/

/-- The month alternatives of `MONTH_PATTERN`, flattened in the regex's
alternation order (longer optional-suffix form first, as the regex is greedy). -/
def monthForms : List (List Char) :=
  [ "janeiro".data, "jan".data, "feb".data, "fevereiro".data, "fev".data,
    "março".data, "march".data, "mar".data, "apr".data, "abril".data, "abr".data,
    "may".data, "maio".data, "mai".data, "junho".data, "june".data, "jun".data,
    "julho".data, "july".data, "jul".data, "aug".data, "agosto".data, "ago".data,
    "sep".data, "setembro".data, "set".data, "oct".data, "outubro".data, "out".data,
    "novembro".data, "nov".data, "dec".data, "dezembro".data, "dez".data ]

/-- Try to consume a month name (case-insensitively); returns the rest. -/
def monthMatch (l : List Char) : Option (List Char) :=
  (monthForms.find? (fun f => isPrefCI f l)).map (fun f => l.drop f.length)

/-- The class `[\s/.-]`. -/
def isDateSep (c : Char) : Bool := isWsC c || c == '/' || c == '.' || c == '-'

/-- Exactly four digits (`\d{4}`); returns the value and the rest. -/
def year4 : List Char → Option (Nat × List Char)
  | d1 :: d2 :: d3 :: d4 :: r =>
    if d1.isDigit && d2.isDigit && d3.isDigit && d4.isDigit then
      some (digitVal d1 * 1000 + digitVal d2 * 100 + digitVal d3 * 10 + digitVal d4, r)
    else none
  | _ => none

/-- The `start` group of `DATE_PATTERN`: optional month plus separators, then
four digits (falling back to the bare-year alternative). -/
def startMatch (l : List Char) : Option (Nat × List Char) :=
  match monthMatch l with
  | some rest =>
    match year4 (rest.dropWhile isDateSep) with
    | some r => some r
    | none => year4 l
  | none => year4 l

/-- `\s*(?:[-–—]|até|a|to)\s*` (the experience pattern's range separator). -/
def expSepMatch (l : List Char) : Option (List Char) :=
  let l1 := l.dropWhile isWsC
  let afterKw : Option (List Char) :=
    match l1 with
    | c :: rest =>
      if c = '-' ∨ c = '–' ∨ c = '—' then some rest
      else if isPrefCI ("até".data) l1 then some (l1.drop 3)
      else if isPrefCI ("a".data) l1 then some (l1.drop 1)
      else if isPrefCI ("to".data) l1 then some (l1.drop 2)
      else none
    | [] => none
  afterKw.map (fun r => r.dropWhile isWsC)

/-- The token matched by the `end` group: a year (with its value and original
text) or a literal keyword (with its original text). -/
inductive EndTok where
  | yr (n : Nat) (tok : List Char)
  | word (w : List Char)
deriving DecidableEq

/-- The `end` group of `DATE_PATTERN` (education adds no extra year forms;
keywords in the regex's order `atual|present|current|ongoing`). -/
def endMatch (l : List Char) : Option EndTok :=
  match monthMatch l with
  | some rest =>
    match year4 (rest.dropWhile isDateSep) with
    | some (y, r) => some (.yr y (l.take (l.length - r.length)))
    | none =>
      match year4 l with
      | some (y, r) => some (.yr y (l.take (l.length - r.length)))
      | none => none
  | none =>
    match year4 l with
    | some (y, r) => some (.yr y (l.take (l.length - r.length)))
    | none =>
      if isPrefCI ("atual".data) l then some (.word (l.take 5))
      else if isPrefCI ("present".data) l then some (.word (l.take 7))
      else if isPrefCI ("current".data) l then some (.word (l.take 7))
      else if isPrefCI ("ongoing".data) l then some (.word (l.take 7))
      else none

/-- One attempt of `DATE_PATTERN` at the current position. -/
def dateMatchAt (l : List Char) : Option (Nat × EndTok) :=
  match startMatch l with
  | none => none
  | some (sy, r1) =>
    match expSepMatch r1 with
    | none => none
    | some r2 =>
      match endMatch r2 with
      | none => none
      | some e => some (sy, e)

/-- `DATE_PATTERN.search`. -/
def dateSearch : List Char → Option (Nat × EndTok)
  | [] => none
  | c :: rest =>
    match dateMatchAt (c :: rest) with
    | some r => some r
    | none => dateSearch rest

/-- One attempt of `DURATION_PATTERN` at the current position: digits, an
optional `[.,]`-fraction, optional whitespace, then `anos?`/`years?`. -/
def durMatchAt (l : List Char) : Option ℚ :=
  let ds := l.takeWhile Char.isDigit
  let rest := l.dropWhile Char.isDigit
  if ds.isEmpty then none
  else
    let fr : List Char × List Char :=
      match rest with
      | c :: r2 =>
        if c = '.' ∨ c = ',' then
          let fs := r2.takeWhile Char.isDigit
          if fs.isEmpty then ([], rest) else (fs, r2.dropWhile Char.isDigit)
        else ([], rest)
      | [] => ([], rest)
    let rest3 := fr.2.dropWhile isWsC
    if isPrefCI ("ano".data) rest3 || isPrefCI ("year".data) rest3 then
      some ((digitsToNat ds : ℚ) + (digitsToNat fr.1 : ℚ) / ((10 : ℚ) ^ fr.1.length))
    else none

/-- `DURATION_PATTERN.search`, returning the parsed `float` value
(`,` is treated as a decimal point, as in the source). -/
def durSearch : List Char → Option ℚ
  | [] => none
  | c :: rest =>
    match durMatchAt (c :: rest) with
    | some v => some v
    | none => durSearch rest

/-- Resolution of the `end` token in `_parse_duration_to_years`: the keywords
`atual`/`present`/`current` resolve to the current year; a year token resolves
to its first four digits; anything else (e.g. `ongoing`) fails. -/
def resolveEnd (cy : ℤ) (e : EndTok) : Option ℤ :=
  match e with
  | .yr n _ => some (n : ℤ)
  | .word w =>
    if pyLower w = "atual".data ∨ pyLower w = "present".data ∨ pyLower w = "current".data
    then some cy else none

/-- `ExperienceExtractor._parse_duration_to_years` (with `datetime.now().year`
passed as `cy`).  Note the Python truthiness check `if start_year and end_year`:
a year equal to 0 falls through to the 1.0 default. -/
def parse_duration_to_years (cy : ℤ) (duration : Option (List Char)) : ℚ :=
  match duration with
  | none => 0
  | some d =>
    if d.isEmpty then 0
    else
      match durSearch d with
      | some v => v
      | none =>
        match dateSearch d with
        | some (sy, e) =>
          match resolveEnd cy e with
          | some ey => if sy ≠ 0 ∧ ey ≠ 0 then max ((ey : ℚ) - (sy : ℚ)) (1/2) else 1
          | none => 1
        | none => 1

/-- `ExperienceExtractor.calculate_total_years`. -/
def calculate_total_years (cy : ℤ) (exps : List Experience) : ℚ :=
  round1 (exps.foldl (fun acc e => acc + parse_duration_to_years cy e.duration) 0)

/-- Per-experience value according to claim C3's words: explicit duration value;
otherwise `end - start` for a parsed date range, with the 0.5 minimum applied
only when start and end are the same year; otherwise 1.0 if a duration string
exists; 0.0 if there is none. -/
def claim_parse_duration (cy : ℤ) (duration : Option (List Char)) : ℚ :=
  match duration with
  | none => 0
  | some d =>
    if d.isEmpty then 0
    else
      match durSearch d with
      | some v => v
      | none =>
        match dateSearch d with
        | some (sy, e) =>
          match resolveEnd cy e with
          | some ey => if (sy : ℤ) = ey then 1/2 else (ey : ℚ) - (sy : ℚ)
          | none => 1
        | none => 1

def claim_calculate_total_years (cy : ℤ) (exps : List Experience) : ℚ :=
  round1 (exps.foldl (fun acc e => acc + claim_parse_duration cy e.duration) 0)

/-- Per-experience value according to claim C3 as amended: the 0.5 minimum is
applied to the whole difference (`max(end - start, 0.5)`), and a year parsed
as `0000` is treated as unparseable (1.0 default). -/
def amended_parse_duration (cy : ℤ) (duration : Option (List Char)) : ℚ :=
  match duration with
  | none => 0
  | some d =>
    if d.isEmpty then 0
    else
      match durSearch d with
      | some v => v
      | none =>
        match dateSearch d with
        | some (sy, e) =>
          match resolveEnd cy e with
          | some ey =>
            if (sy : ℤ) = 0 ∨ ey = 0 then 1 else max ((ey : ℚ) - (sy : ℚ)) (1/2)
          | none => 1
        | none => 1

def amended_calculate_total_years (cy : ℤ) (exps : List Experience) : ℚ :=
  round1 (exps.foldl (fun acc e => acc + amended_parse_duration cy e.duration) 0)

/-- C3 counterexample: for the reversed date range `"2021 - 2020"` the code
clamps `end - start` to 0.5 (`max(years, 0.5)`) — the claim's rule ("minimum
0.5 only when start and end year are the same, else `end - start`") yields
-1.0, so `calculate_total_years` differs from the claim's description. -/
theorem C3_counterexample :
    calculate_total_years 2026 [⟨"Desenvolvedor".data, none, some ("2021 - 2020".data), none⟩] =
      1/2 ∧
    claim_calculate_total_years 2026
      [⟨"Desenvolvedor".data, none, some ("2021 - 2020".data), none⟩] = -1 ∧
    calculate_total_years 2026 [⟨"Desenvolvedor".data, none, some ("2021 - 2020".data), none⟩] ≠
      claim_calculate_total_years 2026
        [⟨"Desenvolvedor".data, none, some ("2021 - 2020".data), none⟩] := by
  refine ⟨by decide, by decide, by decide⟩

theorem parse_duration_eq_amended (cy : ℤ) (d : Option (List Char)) :
    parse_duration_to_years cy d = amended_parse_duration cy d := by
  unfold parse_duration_to_years amended_parse_duration
  cases d with
  | none => rfl
  | some s =>
    by_cases hs : s.isEmpty
    · simp [hs]
    · simp only [hs, if_false, Bool.false_eq_true]
      cases durSearch s with
      | some v => rfl
      | none =>
        simp only
        cases dateSearch s with
        | none => rfl
        | some p =>
          obtain ⟨sy, e⟩ := p
          simp only
          cases resolveEnd cy e with
          | none => rfl
          | some ey =>
            simp only
            by_cases h0 : (sy : ℤ) = 0 ∨ ey = 0
            · rw [if_pos h0, if_neg (by omega)]
            · rw [if_neg h0, if_pos (by omega)]

/-- C3 (amended): `calculate_total_years` returns, rounded to one decimal, the
sum over experiences of: the explicit "N anos/years" value when present;
otherwise `max(end_year - start_year, 0.5)` for a parsed date range (end
resolved to the current year for atual/present/current, a year parsed as 0000
treated as unparseable); otherwise 1.0 when a duration string exists but is
unparseable; 0.0 when the experience has no duration.  In particular a single
experience with duration "3 anos" yields exactly 3.0. -/
theorem C3_total_years :
    (∀ (cy : ℤ) (exps : List Experience),
      calculate_total_years cy exps = amended_calculate_total_years cy exps) ∧
    calculate_total_years 2026 [⟨"Desenvolvedor".data, none, some ("3 anos".data), none⟩] = 3 := by
  constructor
  · intro cy exps
    unfold calculate_total_years amended_calculate_total_years
    simp only [parse_duration_eq_amended]
  · decide

/-! ## Scoring engine (src/scoring/engine.py) -/

/-- `category_weights` and `skill_weights` from the weights config. -/
structure WeightsConfig where
  category_weights : List (List Char × ℚ)
  skill_weights : List (List Char × ℚ)
deriving DecidableEq

/-- `ExperienceExtractor.infer_seniority`. -/
def infer_seniority (total_years : ℚ) (role : List Char) : List Char :=
  let role_lower := pyLower role
  if containsSub role_lower ("sênior".data) || containsSub role_lower ("senior".data) ||
      containsSub role_lower ("sr".data) then "senior".data
  else if containsSub role_lower ("pleno".data) || containsSub role_lower ("mid".data) ||
      containsSub role_lower ("middle".data) then "mid".data
  else if containsSub role_lower ("júnior".data) || containsSub role_lower ("junior".data) ||
      containsSub role_lower ("jr".data) || containsSub role_lower ("estagiário".data) ||
      containsSub role_lower ("intern".data) then "junior".data
  else if total_years ≥ 5 then "senior".data
  else if total_years ≥ 2 then "mid".data
  else "junior".data

/-- `ScoringEngine._calculate_skills_score`: returns `(score_total, breakdown)`. -/
def calculate_skills_score (cfg : WeightsConfig) (skills : List Skill)
    (category_weight : ℚ) : ℚ × List (List Char × ℚ) :=
  if skills.isEmpty then (0, [])
  else
    let res := skills.foldl
      (fun (acc : List (List Char × ℚ) × ℚ) (skill : Skill) =>
        let skill_name := pyLower skill.name
        let weight := (alookup cfg.skill_weights skill_name).getD 5
        let score := weight * skill.confidence
        (dictInsert acc.1 skill_name score, acc.2 + score))
      ([], 0)
    let normalized := res.2 / (skills.length : ℚ)
    (normalized * category_weight, res.1)

/-- `ScoringEngine._calculate_experience_score`. -/
def calculate_experience_score (cy : ℤ) (cand : Candidate) (weight : ℚ)
    (job : Option JobProfile) : ℚ :=
  if cand.experiences.isEmpty then 0
  else
    let total_years := calculate_total_years cy cand.experiences
    let years_score : ℚ :=
      if total_years ≥ 5 then 10
      else if total_years ≥ 3 then 6 + (total_years - 3) * 1
      else if total_years ≥ 1 then 4 + (total_years - 1) * 1
      else total_years * 4
    let first_role :=
      match cand.experiences.head? with
      | some e => e.role
      | none => []
    let seniority := infer_seniority total_years first_role
    let seniority_bonus : ℚ :=
      if seniority = "senior".data then 2
      else if seniority = "mid".data then 1
      else 0
    let relevance_bonus : ℚ :=
      match job with
      | none => 0
      | some j =>
        let job_text_lower := pyLower j.description
        cand.experiences.foldl
          (fun acc exp =>
            if (["desenvolvedor".data, "developer".data].filter
                  (fun t => containsSub (pyLower exp.role) t)).any
                (fun t => containsSub job_text_lower t)
            then acc + 1 else acc) 0
    round2 ((years_score + seniority_bonus + relevance_bonus) * weight)

/-- The `level_map` of `EducationExtractor.get_highest_degree_level`,
in the source's iteration order. -/
def levelMap : List (List Char × Nat) :=
  [ ("doutorado".data, 6), ("mestrado".data, 5), ("mba".data, 5),
    ("especialização".data, 4), ("bacharelado".data, 3), ("licenciatura".data, 3),
    ("tecnólogo".data, 2), ("técnico".data, 1), ("ensino médio".data, 0) ]

/-- `EducationExtractor.get_highest_degree_level`. -/
def get_highest_degree_level (edus : List Education) : Nat :=
  if edus.isEmpty then 0
  else
    edus.foldl
      (fun maxl edu =>
        match levelMap.find? (fun p => containsSub (pyLower edu.degree) p.1) with
        | some p => max maxl p.2
        | none => maxl) 0

/-- `RELEVANT_AREAS` from education_extractor.py. -/
def relevantAreas : List (List Char) :=
  [ "ciência da computação".data, "computer science".data, "computação".data,
    "engenharia de software".data, "software engineering".data,
    "sistemas de informação".data, "information systems".data,
    "análise e desenvolvimento".data, "systems analysis".data,
    "engenharia da computação".data, "computer engineering".data,
    "tecnologia da informação".data, "information technology".data,
    "ciência de dados".data, "data science".data,
    "inteligência artificial".data, "artificial intelligence".data ]

/-- `EducationExtractor.has_relevant_degree`. -/
def has_relevant_degree (edus : List Education) : Bool :=
  edus.any (fun edu => relevantAreas.any (fun a => containsSub (pyLower edu.degree) a))

/-- `ScoringEngine._calculate_education_score`. -/
def calculate_education_score (cand : Candidate) (weight : ℚ) : ℚ :=
  if cand.education.isEmpty then 0
  else
    let highest := get_highest_degree_level cand.education
    let level_score : ℚ :=
      if highest = 6 then 10 else if highest = 5 then 9 else if highest = 4 then 8
      else if highest = 3 then 7 else if highest = 2 then 5 else if highest = 1 then 3
      else if highest = 0 then 1 else 0
    let relevance_bonus : ℚ := if has_relevant_degree cand.education then 2 else 0
    let all_incomplete := cand.education.all (fun e => e.status = "incomplete".data)
    let completion_penalty : ℚ := if all_incomplete then -2 else 0
    max (round2 ((level_score + relevance_bonus + completion_penalty) * weight)) 0

/-- `ScoringEngine.score_candidate`: fills `score` and `score_breakdown`. -/
def score_candidate (cfg : WeightsConfig) (cy : ℤ) (job : Option JobProfile)
    (cand : Candidate) : Candidate :=
  let hard_weight := (alookup cfg.category_weights ("hard_skills".data)).getD (6/10)
  let hard := calculate_skills_score cfg cand.hard_skills hard_weight
  let soft_weight := (alookup cfg.category_weights ("soft_skills".data)).getD (2/10)
  let soft := calculate_skills_score cfg cand.soft_skills soft_weight
  let exp_weight := (alookup cfg.category_weights ("experience".data)).getD (15/100)
  let exp_score := calculate_experience_score cy cand exp_weight job
  let edu_weight := (alookup cfg.category_weights ("education".data)).getD (5/100)
  let edu_score := calculate_education_score cand edu_weight
  let total := hard.1 + soft.1 + exp_score + edu_score
  { cand with
    score := round2 total
    score_breakdown :=
      { hard_skills := round2 hard.1
        soft_skills := round2 soft.1
        experience := round2 exp_score
        education := round2 edu_score
        hard_skills_detail := hard.2.map (fun p => (p.1, round2 p.2))
        soft_skills_detail := soft.2.map (fun p => (p.1, round2 p.2)) } }

/-- Stable descending insertion by `score` (the semantics of CPython's stable
`sorted(candidates, key=lambda c: c.score, reverse=True)`: equal keys keep
their input order). -/
def insertDesc (c : Candidate) : List Candidate → List Candidate
  | [] => [c]
  | x :: xs => if x.score ≤ c.score then c :: x :: xs else x :: insertDesc c xs

def sortDesc : List Candidate → List Candidate
  | [] => []
  | c :: rest => insertDesc c (sortDesc rest)

/-- `ScoringEngine.rank_candidates`: score everyone, then stable descending
sort by score. -/
def rank_candidates (cfg : WeightsConfig) (cy : ℤ) (job : Option JobProfile)
    (cands : List Candidate) : List Candidate :=
  sortDesc (cands.map (score_candidate cfg cy job))

/-! ### Lemmas: the stable descending sort -/

theorem mem_insertDesc {c y : Candidate} {l : List Candidate}
    (h : y ∈ insertDesc c l) : y = c ∨ y ∈ l := by
  induction l with
  | nil => simp [insertDesc] at h; exact Or.inl h
  | cons x xs ih =>
    unfold insertDesc at h
    split at h
    · rcases List.mem_cons.mp h with h | h
      · exact Or.inl h
      · exact Or.inr h
    · rcases List.mem_cons.mp h with h | h
      · exact Or.inr (h ▸ List.mem_cons_self _ _)
      · rcases ih h with h | h
        · exact Or.inl h
        · exact Or.inr (List.mem_cons_of_mem _ h)

theorem insertDesc_perm (c : Candidate) (l : List Candidate) :
    (insertDesc c l).Perm (c :: l) := by
  induction l with
  | nil => exact List.Perm.refl _
  | cons x xs ih =>
    unfold insertDesc
    split
    · exact List.Perm.refl _
    · exact (List.Perm.cons x ih).trans (List.Perm.swap c x xs)

theorem sortDesc_perm (l : List Candidate) : (sortDesc l).Perm l := by
  induction l with
  | nil => exact List.Perm.refl _
  | cons c rest ih =>
    exact (insertDesc_perm c (sortDesc rest)).trans (List.Perm.cons c ih)

theorem insertDesc_sorted {c : Candidate} {l : List Candidate}
    (h : l.Pairwise (fun a b => b.score ≤ a.score)) :
    (insertDesc c l).Pairwise (fun a b => b.score ≤ a.score) := by
  induction l with
  | nil => simp [insertDesc]
  | cons x xs ih =>
    rw [List.pairwise_cons] at h
    unfold insertDesc
    split
    · rename_i hxc
      rw [List.pairwise_cons]
      refine ⟨?_, List.pairwise_cons.mpr h⟩
      intro y hy
      rcases List.mem_cons.mp hy with hy | hy
      · exact hy ▸ hxc
      · exact le_trans (h.1 y hy) hxc
    · rename_i hxc
      push_neg at hxc
      rw [List.pairwise_cons]
      refine ⟨?_, ih h.2⟩
      intro y hy
      rcases mem_insertDesc hy with hy | hy
      · exact hy ▸ le_of_lt hxc
      · exact h.1 y hy

theorem sortDesc_sorted (l : List Candidate) :
    (sortDesc l).Pairwise (fun a b => b.score ≤ a.score) := by
  induction l with
  | nil => exact List.Pairwise.nil
  | cons c rest ih => exact insertDesc_sorted ih

/-- Stability, characterized through filters: the sublist of candidates with
any given score is unchanged by the sort. -/
theorem insertDesc_filter (q : ℚ) (c : Candidate) (l : List Candidate) :
    (insertDesc c l).filter (fun y => decide (y.score = q)) =
    (c :: l).filter (fun y => decide (y.score = q)) := by
  induction l with
  | nil => rfl
  | cons x xs ih =>
    unfold insertDesc
    split
    · rfl
    · rename_i hxc
      push_neg at hxc
      by_cases hc : c.score = q
      · have hx : ¬ x.score = q := by
          intro hxq
          rw [hxq, ← hc] at hxc
          exact absurd hxc (lt_irrefl _)
        calc (x :: insertDesc c xs).filter (fun y => decide (y.score = q))
            = (insertDesc c xs).filter (fun y => decide (y.score = q)) :=
              List.filter_cons_of_neg (by simpa using hx)
          _ = (c :: xs).filter (fun y => decide (y.score = q)) := ih
          _ = c :: xs.filter (fun y => decide (y.score = q)) :=
              List.filter_cons_of_pos (by simpa using hc)
          _ = c :: (x :: xs).filter (fun y => decide (y.score = q)) := by
              rw [List.filter_cons_of_neg (by simpa using hx)]
          _ = (c :: x :: xs).filter (fun y => decide (y.score = q)) :=
              (List.filter_cons_of_pos (by simpa using hc)).symm
      · have ih2 : (insertDesc c xs).filter (fun y => decide (y.score = q)) =
            xs.filter (fun y => decide (y.score = q)) := by
          rw [ih, List.filter_cons_of_neg (by simpa using hc)]
        conv_rhs => rw [List.filter_cons_of_neg (by simpa using hc)]
        by_cases hx : x.score = q
        · rw [List.filter_cons_of_pos (by simpa using hx), ih2,
            List.filter_cons_of_pos (by simpa using hx)]
        · rw [List.filter_cons_of_neg (by simpa using hx), ih2,
            List.filter_cons_of_neg (by simpa using hx)]

theorem sortDesc_filter (q : ℚ) (l : List Candidate) :
    (sortDesc l).filter (fun y => decide (y.score = q)) =
    l.filter (fun y => decide (y.score = q)) := by
  induction l with
  | nil => rfl
  | cons c rest ih =>
    calc (insertDesc c (sortDesc rest)).filter (fun y => decide (y.score = q))
        = (c :: sortDesc rest).filter (fun y => decide (y.score = q)) :=
          insertDesc_filter q c (sortDesc rest)
      _ = (c :: rest).filter (fun y => decide (y.score = q)) := by
          by_cases hc : c.score = q
          · rw [List.filter_cons_of_pos (by simpa using hc),
              List.filter_cons_of_pos (by simpa using hc), ih]
          · rw [List.filter_cons_of_neg (by simpa using hc),
              List.filter_cons_of_neg (by simpa using hc), ih]

/-! ### C2: rank_candidates -/

/-- Config and candidates for the concrete ranking instance of C2:
distinct skill weights make the four candidates score 3.0, 5.0, 5.0 and 1.0. -/
def cfgC2 : WeightsConfig :=
  ⟨[("hard_skills".data, 1)],
   [("a".data, 3), ("b".data, 5), ("c".data, 5), ("d".data, 1)]⟩

def mkSkillCand (nm sk : List Char) : Candidate :=
  ⟨nm, [], none, [⟨sk, "hard".data, 1, "dictionary".data⟩], [], [], [], 0,
   ⟨0, 0, 0, 0, [], []⟩⟩

/-- C2: `rank_candidates` scores every candidate and returns them sorted in
descending score order, with a stable sort (the multiset of scored candidates
is preserved, and, for every score value, the candidates having that score
appear in their original order).  For computed scores `[3, 5, 5, 1]` on
candidates `[A, B, C, D]`, the output order is `[B, C, A, D]`. -/
theorem C2_rank_candidates :
    (∀ (cfg : WeightsConfig) (cy : ℤ) (job : Option JobProfile)
        (cands : List Candidate),
      (rank_candidates cfg cy job cands).Pairwise (fun a b => b.score ≤ a.score) ∧
      (rank_candidates cfg cy job cands).Perm
        (cands.map (score_candidate cfg cy job)) ∧
      (∀ q : ℚ, (rank_candidates cfg cy job cands).filter
          (fun y => decide (y.score = q)) =
        (cands.map (score_candidate cfg cy job)).filter
          (fun y => decide (y.score = q)))) ∧
    ((rank_candidates cfgC2 2026 none
        [mkSkillCand ("A".data) ("a".data), mkSkillCand ("B".data) ("b".data),
         mkSkillCand ("C".data) ("c".data), mkSkillCand ("D".data) ("d".data)]).map
      (fun c => c.name) =
      ["B".data, "C".data, "A".data, "D".data]) := by
  constructor
  · intro cfg cy job cands
    exact ⟨sortDesc_sorted _, sortDesc_perm _, fun q => sortDesc_filter q _⟩
  · decide

/-! ### Lemmas: non-negativity of the scoring components -/

theorem alookup_mem {α β : Type} [DecidableEq α] {l : List (α × β)} {k : α} {v : β}
    (h : alookup l k = some v) : (k, v) ∈ l := by
  induction l with
  | nil => simp [alookup] at h
  | cons p rest ih =>
    obtain ⟨a, b⟩ := p
    by_cases ha : a = k
    · simp only [alookup, if_pos ha] at h
      have hb : b = v := Option.some_inj.mp h
      subst ha; subst hb
      exact List.mem_cons_self _ _
    · simp only [alookup, if_neg ha] at h
      exact List.mem_cons_of_mem _ (ih h)

theorem alookup_getD_nonneg {l : List (List Char × ℚ)}
    (h : ∀ p ∈ l, 0 ≤ p.2) (k : List Char) {d : ℚ} (hd : 0 ≤ d) :
    0 ≤ (alookup l k).getD d := by
  cases hl : alookup l k with
  | none => simpa using hd
  | some v =>
    have := h (k, v) (alookup_mem hl)
    simpa using this

theorem foldl_preserve_nonneg {α : Type} (f : ℚ → α → ℚ)
    (hf : ∀ (a : ℚ) (x : α), 0 ≤ a → 0 ≤ f a x) :
    ∀ (l : List α) (acc : ℚ), 0 ≤ acc → 0 ≤ l.foldl f acc := by
  intro l
  induction l with
  | nil => intro acc h; simpa using h
  | cons x xs ih =>
    intro acc h
    rw [List.foldl_cons]
    exact ih _ (hf acc x h)

theorem durMatchAt_nonneg {l : List Char} {v : ℚ} (h : durMatchAt l = some v) :
    0 ≤ v := by
  simp only [durMatchAt] at h
  split at h
  · exact absurd h (by simp)
  · split at h
    · have hv : (digitsToNat (l.takeWhile Char.isDigit) : ℚ) +
          (digitsToNat _ : ℚ) / ((10 : ℚ) ^ _) = v := Option.some_inj.mp h
      rw [← hv]
      positivity
    · exact absurd h (by simp)

theorem durSearch_nonneg : ∀ {l : List Char} {v : ℚ}, durSearch l = some v → 0 ≤ v := by
  intro l
  induction l with
  | nil => intro v h; simp [durSearch] at h
  | cons c rest ih =>
    intro v h
    unfold durSearch at h
    cases h1 : durMatchAt (c :: rest) with
    | some w =>
      rw [h1] at h
      have := Option.some_inj.mp h
      exact this ▸ durMatchAt_nonneg h1
    | none =>
      rw [h1] at h
      exact ih h

theorem parse_duration_nonneg (cy : ℤ) (d : Option (List Char)) :
    0 ≤ parse_duration_to_years cy d := by
  cases d with
  | none => simp [parse_duration_to_years]
  | some s =>
    by_cases hse : s.isEmpty
    · simp [parse_duration_to_years, hse]
    · cases hds : durSearch s with
      | some v =>
        have hv : parse_duration_to_years cy (some s) = v := by
          simp [parse_duration_to_years, hse, hds]
        rw [hv]
        exact durSearch_nonneg hds
      | none =>
        cases hdt : dateSearch s with
        | none =>
          have hv : parse_duration_to_years cy (some s) = 1 := by
            simp [parse_duration_to_years, hse, hds, hdt]
          rw [hv]; norm_num
        | some p =>
          obtain ⟨sy, e⟩ := p
          cases hre : resolveEnd cy e with
          | none =>
            have hv : parse_duration_to_years cy (some s) = 1 := by
              simp [parse_duration_to_years, hse, hds, hdt, hre]
            rw [hv]; norm_num
          | some ey =>
            have hv : parse_duration_to_years cy (some s) =
                if sy ≠ 0 ∧ ey ≠ 0 then max ((ey : ℚ) - (sy : ℚ)) (1/2) else 1 := by
              simp [parse_duration_to_years, hse, hds, hdt, hre]
            rw [hv]
            split
            · exact le_trans (by norm_num) (le_max_right _ (1/2))
            · norm_num

theorem total_years_nonneg (cy : ℤ) (exps : List Experience) :
    0 ≤ calculate_total_years cy exps := by
  unfold calculate_total_years
  apply round1_nonneg
  exact foldl_preserve_nonneg _
    (fun a e ha => add_nonneg ha (parse_duration_nonneg cy e.duration)) exps 0 (le_refl 0)

theorem skills_foldl_snd_nonneg (cfg : WeightsConfig)
    (hsw : ∀ p ∈ cfg.skill_weights, 0 ≤ p.2) :
    ∀ (skills : List Skill) (acc : List (List Char × ℚ) × ℚ),
      (∀ s ∈ skills, 0 ≤ s.confidence) → 0 ≤ acc.2 →
      0 ≤ (skills.foldl
        (fun (acc : List (List Char × ℚ) × ℚ) (skill : Skill) =>
          let skill_name := pyLower skill.name
          let weight := (alookup cfg.skill_weights skill_name).getD 5
          let score := weight * skill.confidence
          (dictInsert acc.1 skill_name score, acc.2 + score)) acc).2 := by
  intro skills
  induction skills with
  | nil => intro acc _ h; simpa using h
  | cons s ss ih =>
    intro acc hconf hacc
    rw [List.foldl_cons]
    apply ih _ (fun t ht => hconf t (List.mem_cons_of_mem _ ht))
    have hw : 0 ≤ (alookup cfg.skill_weights (pyLower s.name)).getD 5 :=
      alookup_getD_nonneg hsw _ (by norm_num)
    have hc := hconf s (List.mem_cons_self _ _)
    simp only
    exact add_nonneg hacc (mul_nonneg hw hc)

theorem skills_score_nonneg (cfg : WeightsConfig) (skills : List Skill) (cw : ℚ)
    (hsw : ∀ p ∈ cfg.skill_weights, 0 ≤ p.2)
    (hconf : ∀ s ∈ skills, 0 ≤ s.confidence) (hcw : 0 ≤ cw) :
    0 ≤ (calculate_skills_score cfg skills cw).1 := by
  unfold calculate_skills_score
  split
  · exact le_refl 0
  · simp only
    apply mul_nonneg _ hcw
    apply div_nonneg _ (by positivity)
    exact skills_foldl_snd_nonneg cfg hsw skills ([], 0) hconf (le_refl 0)

theorem exp_score_nonneg (cy : ℤ) (cand : Candidate) (w : ℚ)
    (job : Option JobProfile) (hw : 0 ≤ w) :
    0 ≤ calculate_experience_score cy cand w job := by
  simp only [calculate_experience_score]
  split
  · exact le_refl 0
  · apply round2_nonneg
    apply mul_nonneg _ hw
    have hty : 0 ≤ calculate_total_years cy cand.experiences := total_years_nonneg _ _
    apply add_nonneg
    apply add_nonneg
    · split_ifs <;> linarith
    · split_ifs <;> norm_num
    · cases job with
      | none => exact le_refl 0
      | some j =>
        apply foldl_preserve_nonneg _ _ _ 0 (le_refl 0)
        intro a x ha
        split
        · linarith
        · exact ha

theorem edu_score_nonneg (cand : Candidate) (w : ℚ) :
    0 ≤ calculate_education_score cand w := by
  unfold calculate_education_score
  split
  · exact le_refl 0
  · exact le_max_right _ 0

theorem round2_fix_exp (cy : ℤ) (cand : Candidate) (w : ℚ) (job : Option JobProfile) :
    round2 (calculate_experience_score cy cand w job) =
      calculate_experience_score cy cand w job := by
  simp only [calculate_experience_score]
  split
  · exact round2_zero
  · exact round2_idem _

theorem round2_fix_max (q : ℚ) : round2 (max (round2 q) 0) = max (round2 q) 0 := by
  rcases le_or_lt 0 (round2 q) with h | h
  · rw [max_eq_left h, round2_idem]
  · rw [max_eq_right (le_of_lt h), round2_zero]

theorem round2_fix_edu (cand : Candidate) (w : ℚ) :
    round2 (calculate_education_score cand w) = calculate_education_score cand w := by
  simp only [calculate_education_score]
  split
  · exact round2_zero
  · exact round2_fix_max _

/-! ### C1: score vs score_breakdown -/

/-- Config and candidate for the C1 counterexample: two skills with weight
0.003 give unrounded category scores 0.003 + 0.003, so
`score = round(0.006, 2) = 0.01` while the breakdown stores
`round(0.003, 2) = 0.0` twice. -/
def cfgC1x : WeightsConfig :=
  ⟨[("hard_skills".data, 1), ("soft_skills".data, 1)],
   [("a".data, 3/1000), ("b".data, 3/1000)]⟩

def candC1x : Candidate :=
  ⟨"X".data, [], none,
   [⟨"a".data, "hard".data, 1, "dictionary".data⟩],
   [⟨"b".data, "soft".data, 1, "dictionary".data⟩],
   [], [], 0, ⟨0, 0, 0, 0, [], []⟩⟩

/-- C1 counterexample: after `score_candidate`, the score does NOT always
equal `round(hard + soft + experience + education, 2)` computed from the
values stored in `score_breakdown`: the stored hard/soft sub-scores are
rounded before storage while the score is rounded from the unrounded sum. -/
theorem C1_counterexample :
    (score_candidate cfgC1x 2026 none candC1x).score ≠
      round2 ((score_candidate cfgC1x 2026 none candC1x).score_breakdown.hard_skills +
        (score_candidate cfgC1x 2026 none candC1x).score_breakdown.soft_skills +
        (score_candidate cfgC1x 2026 none candC1x).score_breakdown.experience +
        (score_candidate cfgC1x 2026 none candC1x).score_breakdown.education) := by
  decide

/-- C1 (amended): after `score_candidate` (with non-negative configured
category weights, skill weights and skill confidences), the score equals
`round(hard + soft + experience + education, 2)` where `hard`/`soft` are the
exact (pre-rounding) category scores and `experience`/`education` are exactly
the sub-scores stored in `score_breakdown` (those two are already rounded by
their calculators, so they are stored unchanged); the stored hard/soft
sub-scores are the 2-decimal roundings of the exact values, and all four
stored sub-scores are non-negative. -/
theorem C1_score_invariant (cfg : WeightsConfig) (cy : ℤ) (job : Option JobProfile)
    (cand : Candidate)
    (hcw : ∀ p ∈ cfg.category_weights, 0 ≤ p.2)
    (hsw : ∀ p ∈ cfg.skill_weights, 0 ≤ p.2)
    (hch : ∀ s ∈ cand.hard_skills, 0 ≤ s.confidence)
    (hcs : ∀ s ∈ cand.soft_skills, 0 ≤ s.confidence) :
    (score_candidate cfg cy job cand).score =
      round2 ((calculate_skills_score cfg cand.hard_skills
          ((alookup cfg.category_weights ("hard_skills".data)).getD (6/10))).1 +
        (calculate_skills_score cfg cand.soft_skills
          ((alookup cfg.category_weights ("soft_skills".data)).getD (2/10))).1 +
        (score_candidate cfg cy job cand).score_breakdown.experience +
        (score_candidate cfg cy job cand).score_breakdown.education) ∧
    (score_candidate cfg cy job cand).score_breakdown.hard_skills =
      round2 (calculate_skills_score cfg cand.hard_skills
        ((alookup cfg.category_weights ("hard_skills".data)).getD (6/10))).1 ∧
    (score_candidate cfg cy job cand).score_breakdown.soft_skills =
      round2 (calculate_skills_score cfg cand.soft_skills
        ((alookup cfg.category_weights ("soft_skills".data)).getD (2/10))).1 ∧
    0 ≤ (score_candidate cfg cy job cand).score_breakdown.hard_skills ∧
    0 ≤ (score_candidate cfg cy job cand).score_breakdown.soft_skills ∧
    0 ≤ (score_candidate cfg cy job cand).score_breakdown.experience ∧
    0 ≤ (score_candidate cfg cy job cand).score_breakdown.education := by
  have hwH : 0 ≤ (alookup cfg.category_weights ("hard_skills".data)).getD (6/10) :=
    alookup_getD_nonneg hcw _ (by norm_num)
  have hwS : 0 ≤ (alookup cfg.category_weights ("soft_skills".data)).getD (2/10) :=
    alookup_getD_nonneg hcw _ (by norm_num)
  have hwE : 0 ≤ (alookup cfg.category_weights ("experience".data)).getD (15/100) :=
    alookup_getD_nonneg hcw _ (by norm_num)
  have hbdE : (score_candidate cfg cy job cand).score_breakdown.experience =
      calculate_experience_score cy cand
        ((alookup cfg.category_weights ("experience".data)).getD (15/100)) job := by
    show round2 _ = _
    exact round2_fix_exp _ _ _ _
  have hbdD : (score_candidate cfg cy job cand).score_breakdown.education =
      calculate_education_score cand
        ((alookup cfg.category_weights ("education".data)).getD (5/100)) := by
    show round2 _ = _
    exact round2_fix_edu _ _
  refine ⟨?_, rfl, rfl, ?_, ?_, ?_, ?_⟩
  · rw [hbdE, hbdD]
    rfl
  · exact round2_nonneg (skills_score_nonneg cfg _ _ hsw hch hwH)
  · exact round2_nonneg (skills_score_nonneg cfg _ _ hsw hcs hwS)
  · rw [hbdE]
    exact exp_score_nonneg _ _ _ _ hwE
  · rw [hbdD]
    exact edu_score_nonneg _ _

/-- C1 witness: the amended invariant instantiated at the concrete
config/candidate of the C2 ranking example. -/
theorem C1_witness :
    ((∀ p ∈ cfgC2.category_weights, 0 ≤ p.2) ∧
     (∀ p ∈ cfgC2.skill_weights, 0 ≤ p.2) ∧
     (∀ s ∈ (mkSkillCand ("A".data) ("a".data)).hard_skills, 0 ≤ s.confidence) ∧
     (∀ s ∈ (mkSkillCand ("A".data) ("a".data)).soft_skills, 0 ≤ s.confidence)) ∧
    ((score_candidate cfgC2 2026 none (mkSkillCand ("A".data) ("a".data))).score =
      round2 ((calculate_skills_score cfgC2 (mkSkillCand ("A".data) ("a".data)).hard_skills
          ((alookup cfgC2.category_weights ("hard_skills".data)).getD (6/10))).1 +
        (calculate_skills_score cfgC2 (mkSkillCand ("A".data) ("a".data)).soft_skills
          ((alookup cfgC2.category_weights ("soft_skills".data)).getD (2/10))).1 +
        (score_candidate cfgC2 2026 none
          (mkSkillCand ("A".data) ("a".data))).score_breakdown.experience +
        (score_candidate cfgC2 2026 none
          (mkSkillCand ("A".data) ("a".data))).score_breakdown.education) ∧
     (score_candidate cfgC2 2026 none
        (mkSkillCand ("A".data) ("a".data))).score_breakdown.hard_skills =
      round2 (calculate_skills_score cfgC2 (mkSkillCand ("A".data) ("a".data)).hard_skills
        ((alookup cfgC2.category_weights ("hard_skills".data)).getD (6/10))).1 ∧
     (score_candidate cfgC2 2026 none
        (mkSkillCand ("A".data) ("a".data))).score_breakdown.soft_skills =
      round2 (calculate_skills_score cfgC2 (mkSkillCand ("A".data) ("a".data)).soft_skills
        ((alookup cfgC2.category_weights ("soft_skills".data)).getD (2/10))).1 ∧
     0 ≤ (score_candidate cfgC2 2026 none
        (mkSkillCand ("A".data) ("a".data))).score_breakdown.hard_skills ∧
     0 ≤ (score_candidate cfgC2 2026 none
        (mkSkillCand ("A".data) ("a".data))).score_breakdown.soft_skills ∧
     0 ≤ (score_candidate cfgC2 2026 none
        (mkSkillCand ("A".data) ("a".data))).score_breakdown.experience ∧
     0 ≤ (score_candidate cfgC2 2026 none
        (mkSkillCand ("A".data) ("a".data))).score_breakdown.education) :=
  ⟨⟨by decide, by decide, by decide, by decide⟩,
   C1_score_invariant cfgC2 2026 none (mkSkillCand ("A".data) ("a".data))
     (by decide) (by decide) (by decide) (by decide)⟩

/-! ## Skill extraction (src/skills/extractor.py) -/

/-- The skills config: `hard_skills` and `soft_skills` map group names to term
lists; `synonyms` maps a canonical term to its aliases. -/
structure SkillsConfig where
  hard_skills : List (List Char × List (List Char))
  soft_skills : List (List Char × List (List Char))
  synonyms : List (List Char × List (List Char))
deriving DecidableEq

structure SkillMatch where
  canonical : List Char
  category : List Char
  source : List Char
  count : Nat
deriving DecidableEq

/-- Key insertion with Python-dict semantics (first occurrence keeps its
position; only membership is used downstream). -/
def addKey (l : List (List Char)) (k : List Char) : List (List Char) :=
  if l.contains k then l else l ++ [k]

/-- The keys of `_hard_by_canonical` (`hard[it.lower()] = "hard"`). -/
def keysHard (cfg : SkillsConfig) : List (List Char) :=
  cfg.hard_skills.foldl (fun ks g => g.2.foldl (fun ks it => addKey ks (pyLower it)) ks) []

def keysSoft (cfg : SkillsConfig) : List (List Char) :=
  cfg.soft_skills.foldl (fun ks g => g.2.foldl (fun ks it => addKey ks (pyLower it)) ks) []

/-- `SkillExtractor._build_alias_map`: synonyms first (canonical, then each
alias), then every canonical skill via `setdefault`. -/
def build_alias_map (cfg : SkillsConfig) : List (List Char × List Char) :=
  let m := cfg.synonyms.foldl
    (fun m p =>
      p.2.foldl (fun m a => dictInsert m (pyLower a) (pyLower p.1))
        (dictInsert m (pyLower p.1) (pyLower p.1)))
    []
  (keysHard cfg ++ keysSoft cfg).foldl (fun m c => dictSetdefault m c c) m

/-- Matching one alias occurrence (the compiled pattern body, without the
lookarounds): alias characters match case-insensitively, each space in the
alias matches one or more whitespace characters greedily (`\s+`).  Returns the
matched length. -/
def matchAliasLen : List Char → List Char → Option Nat
  | [], _ => some 0
  | a :: as, t =>
    if a = ' ' then
      match t with
      | [] => none
      | c :: cs =>
        if isWsC c then
          (matchAliasLen as (cs.dropWhile isWsC)).map
            (fun n => n + 1 + (cs.takeWhile isWsC).length)
        else none
    else
      match t with
      | [] => none
      | c :: cs => if toLowerC c = a then (matchAliasLen as cs).map (· + 1) else none

/-- `pattern.finditer(text)` count for `(?<!\w){alias}(?!\w)`: scan left to
right; a successful match (with both word-boundary lookarounds) is counted and
the scan resumes after it, otherwise the scan advances one character.  `prev`
is the character before the current position.  The fuel argument (structural,
initialized to the text length) bounds the scan: every step consumes at least
one character, so the fuel never runs out. -/
def hitsFrom (pat : List Char) : Nat → Option Char → List Char → Nat
  | 0, _, _ => 0
  | _ + 1, _, [] => 0
  | fuel + 1, prev, c :: cs =>
    let prevOk := match prev with | none => true | some p => !isWordC p
    let fullMatch : Option Nat :=
      if prevOk then
        match matchAliasLen pat (c :: cs) with
        | some L =>
          if (match (c :: cs).drop L with | [] => true | d :: _ => !isWordC d)
          then some L else none
        | none => none
      else none
    match fullMatch with
    | some (L + 1) =>
      1 + hitsFrom pat fuel (((c :: cs).take (L + 1)).getLast?) ((c :: cs).drop (L + 1))
    | some 0 => hitsFrom pat fuel (some c) cs
    | none => hitsFrom pat fuel (some c) cs

/-- Number of regex hits of `alias` in `text`. -/
def countHits (pat text : List Char) : Nat := hitsFrom pat text.length none text

/-- One iteration of the alias loop in `SkillExtractor.extract_from_text`:
count the hits, resolve the category from the canonical sets, set the source
from whether the alias equals its canonical, and merge the count into the
`matches` dict. -/
def skillStep (cfg : SkillsConfig) (text : List Char)
    (ms : List (List Char × SkillMatch)) (p : List Char × List Char) :
    List (List Char × SkillMatch) :=
  let hits := countHits p.1 text
  if hits = 0 then ms
  else
    match (if (keysHard cfg).contains p.2 then some ("hard".data)
      else if (keysSoft cfg).contains p.2 then some ("soft".data)
      else none) with
    | none => ms
    | some category =>
      let source := if p.1 ≠ p.2 then "synonym".data else "dictionary".data
      let count := (match alookup ms p.2 with | some m => m.count | none => 0) + hits
      dictInsert ms p.2 ⟨p.2, category, source, count⟩

/-- `SkillExtractor.extract_from_text`. -/
def extract_from_text (cfg : SkillsConfig) (text : List Char) : List Skill :=
  let found := (build_alias_map cfg).foldl (skillStep cfg text) []
  found.map (fun q =>
    ⟨q.2.canonical, q.2.category,
     (if q.2.source = "dictionary".data then (9:ℚ)/10 else 85/100), q.2.source⟩)

/-! ### Lemmas: assoc-dict properties and the last-alias-wins fold invariant -/

theorem alookup_dictInsert_self {α β : Type} [DecidableEq α]
    (l : List (α × β)) (k : α) (v : β) : alookup (dictInsert l k v) k = some v := by
  induction l with
  | nil => simp [dictInsert, alookup]
  | cons p rest ih =>
    obtain ⟨a, b⟩ := p
    by_cases ha : a = k
    · simp [dictInsert, ha, alookup]
    · simp [dictInsert, ha, alookup, ih]

theorem alookup_dictInsert_ne {α β : Type} [DecidableEq α]
    (l : List (α × β)) (k k' : α) (v : β) (h : k' ≠ k) :
    alookup (dictInsert l k v) k' = alookup l k' := by
  induction l with
  | nil =>
    have hk : ¬ k = k' := fun hc => h hc.symm
    simp [dictInsert, alookup, hk]
  | cons p rest ih =>
    obtain ⟨a, b⟩ := p
    by_cases ha : a = k
    · subst ha
      have hk : ¬ a = k' := fun hc => h hc.symm
      simp [dictInsert, alookup, hk]
    · by_cases ha' : a = k'
      · simp [dictInsert, alookup, ha, ha', h]
      · simp [dictInsert, alookup, ha, ha', ih]

theorem mem_dictInsert {α β : Type} [DecidableEq α]
    {l : List (α × β)} {k : α} {v : β} {q : α × β}
    (h : q ∈ dictInsert l k v) : q = (k, v) ∨ q ∈ l := by
  induction l with
  | nil => simp [dictInsert] at h; exact Or.inl h
  | cons p rest ih =>
    obtain ⟨a, b⟩ := p
    by_cases ha : a = k
    · rw [dictInsert, if_pos ha] at h
      rcases List.mem_cons.mp h with h | h
      · exact Or.inl h
      · exact Or.inr (List.mem_cons_of_mem _ h)
    · rw [dictInsert, if_neg ha] at h
      rcases List.mem_cons.mp h with h | h
      · exact Or.inr (h ▸ List.mem_cons_self _ _)
      · rcases ih h with h | h
        · exact Or.inl h
        · exact Or.inr (List.mem_cons_of_mem _ h)

theorem keys_dictInsert_nodup {α β : Type} [DecidableEq α]
    {l : List (α × β)} (k : α) (v : β) (h : (l.map Prod.fst).Nodup) :
    ((dictInsert l k v).map Prod.fst).Nodup := by
  induction l with
  | nil => simp [dictInsert]
  | cons p rest ih =>
    obtain ⟨a, b⟩ := p
    rw [List.map_cons, List.nodup_cons] at h
    by_cases ha : a = k
    · rw [dictInsert, if_pos ha, List.map_cons, List.nodup_cons]
      exact ⟨ha ▸ h.1, h.2⟩
    · rw [dictInsert, if_neg ha, List.map_cons, List.nodup_cons]
      refine ⟨?_, ih h.2⟩
      intro hmem
      rcases List.mem_map.mp hmem with ⟨q, hq, hfst⟩
      rcases mem_dictInsert hq with hq | hq
      · rw [hq] at hfst
        exact ha hfst.symm
      · exact h.1 (List.mem_map.mpr ⟨q, hq, hfst⟩)

theorem alookup_of_mem_nodup {α β : Type} [DecidableEq α]
    {l : List (α × β)} {k : α} {v : β}
    (hn : (l.map Prod.fst).Nodup) (h : (k, v) ∈ l) : alookup l k = some v := by
  induction l with
  | nil => simp at h
  | cons p rest ih =>
    obtain ⟨a, b⟩ := p
    rw [List.map_cons, List.nodup_cons] at hn
    rcases List.mem_cons.mp h with h | h
    · injection h with h1 h2
      show (if a = k then some b else alookup rest k) = some v
      rw [if_pos h1.symm, h2]
    · have ha : ¬ a = k := by
        intro hak
        subst hak
        exact hn.1 (List.mem_map.mpr ⟨(a, v), h, rfl⟩)
      show (if a = k then some b else alookup rest k) = some v
      rw [if_neg ha]
      exact ih hn.2 h

/-- Whether a canonical term has a category (is a known hard or soft skill). -/
def hasCat (cfg : SkillsConfig) (k : List Char) : Bool :=
  (keysHard cfg).contains k || (keysSoft cfg).contains k

/-- The source contributed by the LAST alias of `canonical` (in alias-map
order) that has at least one hit in the text. -/
def lastAliasSource (amap : List (List Char × List Char)) (text : List Char)
    (canonical : List Char) : Option (List Char) :=
  amap.foldl (fun acc p =>
    if p.2 = canonical ∧ 1 ≤ countHits p.1 text
    then some (if p.1 ≠ p.2 then "synonym".data else "dictionary".data)
    else acc) none

theorem lastAliasSource_append (amap : List (List Char × List Char))
    (p : List Char × List Char) (text k : List Char) :
    lastAliasSource (amap ++ [p]) text k =
      if p.2 = k ∧ 1 ≤ countHits p.1 text
      then some (if p.1 ≠ p.2 then "synonym".data else "dictionary".data)
      else lastAliasSource amap text k := by
  unfold lastAliasSource
  rw [List.foldl_append]
  rfl

theorem catOption_none_iff (cfg : SkillsConfig) (k : List Char) :
    ((if (keysHard cfg).contains k then some ("hard".data)
      else if (keysSoft cfg).contains k then some ("soft".data)
      else none) = none) ↔ hasCat cfg k = false := by
  unfold hasCat
  cases h1 : (keysHard cfg).contains k <;> cases h2 : (keysSoft cfg).contains k <;>
    simp [h1, h2]

/-- The fold invariant of the alias loop: keys are distinct, every entry's
`canonical` is its key, sources are `dictionary`/`synonym`, and every entry's
source equals that of the last alias of its canonical processed so far which
hit the text. -/
theorem skillFold_inv (cfg : SkillsConfig) (text : List Char) :
    ∀ (rest pre : List (List Char × List Char)) (ms : List (List Char × SkillMatch)),
      ((ms.map Prod.fst).Nodup) →
      (∀ q ∈ ms, q.2.canonical = q.1 ∧
        (q.2.source = "dictionary".data ∨ q.2.source = "synonym".data)) →
      (∀ k m, alookup ms k = some m →
        hasCat cfg k = true ∧ lastAliasSource pre text k = some m.source) →
      (((rest.foldl (skillStep cfg text) ms).map Prod.fst).Nodup ∧
       (∀ q ∈ rest.foldl (skillStep cfg text) ms, q.2.canonical = q.1 ∧
         (q.2.source = "dictionary".data ∨ q.2.source = "synonym".data)) ∧
       (∀ k m, alookup (rest.foldl (skillStep cfg text) ms) k = some m →
         hasCat cfg k = true ∧
         lastAliasSource (pre ++ rest) text k = some m.source)) := by
  intro rest
  induction rest with
  | nil =>
    intro pre ms h1 h2 h3
    refine ⟨h1, h2, ?_⟩
    intro k m hkm
    rw [List.append_nil]
    exact h3 k m hkm
  | cons p rest' ih =>
    intro pre ms h1 h2 h3
    have hstep : ((skillStep cfg text ms p).map Prod.fst).Nodup ∧
        (∀ q ∈ skillStep cfg text ms p, q.2.canonical = q.1 ∧
          (q.2.source = "dictionary".data ∨ q.2.source = "synonym".data)) ∧
        (∀ k m, alookup (skillStep cfg text ms p) k = some m →
          hasCat cfg k = true ∧
          lastAliasSource (pre ++ [p]) text k = some m.source) := by
      by_cases hhits : countHits p.1 text = 0
      · have hms : skillStep cfg text ms p = ms := by simp [skillStep, hhits]
        rw [hms]
        refine ⟨h1, h2, ?_⟩
        intro k m hkm
        obtain ⟨hcat, hlast⟩ := h3 k m hkm
        refine ⟨hcat, ?_⟩
        rw [lastAliasSource_append, if_neg, hlast]
        intro hcon
        omega
      · cases hcatv : (if (keysHard cfg).contains p.2 then some ("hard".data)
          else if (keysSoft cfg).contains p.2 then some ("soft".data)
          else none) with
        | none =>
          have hms : skillStep cfg text ms p = ms := by
            simp only [skillStep, hcatv, if_neg hhits]
          rw [hms]
          refine ⟨h1, h2, ?_⟩
          intro k m hkm
          obtain ⟨hcat, hlast⟩ := h3 k m hkm
          refine ⟨hcat, ?_⟩
          rw [lastAliasSource_append, if_neg, hlast]
          intro hcon
          have hfalse : hasCat cfg p.2 = false := (catOption_none_iff cfg p.2).mp hcatv
          rw [hcon.1] at hfalse
          rw [hcat] at hfalse
          exact absurd hfalse (by simp)
        | some cat =>
          have hms : skillStep cfg text ms p = dictInsert ms p.2
              ⟨p.2, cat, if p.1 ≠ p.2 then "synonym".data else "dictionary".data,
               (match alookup ms p.2 with | some m => m.count | none => 0) +
                 countHits p.1 text⟩ := by
            simp only [skillStep, hcatv, if_neg hhits]
          have hcatT : hasCat cfg p.2 = true := by
            cases hcc : hasCat cfg p.2 with
            | true => rfl
            | false => exact absurd hcatv (by rw [(catOption_none_iff cfg p.2).mpr hcc]; simp)
          rw [hms]
          refine ⟨keys_dictInsert_nodup _ _ h1, ?_, ?_⟩
          · intro q hq
            rcases mem_dictInsert hq with hq | hq
            · rw [hq]
              refine ⟨rfl, ?_⟩
              by_cases hne : p.1 ≠ p.2
              · right; simp [hne]
              · left; simp [hne]
            · exact h2 q hq
          · intro k m hkm
            by_cases hk : k = p.2
            · subst hk
              rw [alookup_dictInsert_self] at hkm
              have hm := Option.some_inj.mp hkm
              refine ⟨hcatT, ?_⟩
              rw [lastAliasSource_append, if_pos ⟨rfl, by omega⟩, ← hm]
            · rw [alookup_dictInsert_ne _ _ _ _ hk] at hkm
              obtain ⟨hcat, hlast⟩ := h3 k m hkm
              refine ⟨hcat, ?_⟩
              rw [lastAliasSource_append, if_neg, hlast]
              intro hcon
              exact hk hcon.1.symm
    have hres := ih (pre ++ [p]) (skillStep cfg text ms p) hstep.1 hstep.2.1 hstep.2.2
    rw [List.append_assoc] at hres
    exact hres

/-- Config for the C4 counterexample: canonical hard skill `react` with
synonym alias `reactjs`. -/
def cfgC4 : SkillsConfig :=
  ⟨[("frameworks".data, ["React".data])], [], [("react".data, ["reactjs".data])]⟩

/-- C4 counterexample: in `"react reactjs"` the canonical name `react` itself
matches the text directly, yet the returned skill has source `"synonym"` and
confidence 0.85 (the later-matching synonym alias overwrote the source) — not
`"dictionary"`/0.9 as the claim states. -/
theorem C4_counterexample :
    1 ≤ countHits ("react".data) ("react reactjs".data) ∧
    extract_from_text cfgC4 ("react reactjs".data) =
      [⟨"react".data, "hard".data, 85/100, "synonym".data⟩] ∧
    (∀ s ∈ extract_from_text cfgC4 ("react reactjs".data),
      ¬ (s.source = "dictionary".data)) := by
  refine ⟨by decide, by decide, by decide⟩

/-- C4 (amended): every Skill returned by `extract_from_text` has confidence
0.9 with source `"dictionary"` or confidence 0.85 with source `"synonym"`; and
the reported source of each skill is that of the LAST alias of its canonical
term, in alias-map order (canonical first, then its synonyms, with canonical
skills appended last), that matches the text — so a canonical that matches
directly is reported as a synonym hit whenever one of its synonym aliases also
matches later in that order. -/
theorem C4_sources (cfg : SkillsConfig) (text : List Char) :
    ∀ s ∈ extract_from_text cfg text,
      ((s.source = "dictionary".data ∧ s.confidence = 9/10) ∨
       (s.source = "synonym".data ∧ s.confidence = 85/100)) ∧
      lastAliasSource (build_alias_map cfg) text s.name = some s.source := by
  intro s hs
  unfold extract_from_text at hs
  rcases List.mem_map.mp hs with ⟨q, hq, hsq⟩
  have hinv := skillFold_inv cfg text (build_alias_map cfg) [] []
    (by simp) (by simp) (by intro k m hkm; simp [alookup] at hkm)
  obtain ⟨hq1, hq2⟩ := hinv.2.1 q hq
  have hlook : alookup ((build_alias_map cfg).foldl (skillStep cfg text) []) q.1 =
      some q.2 :=
    alookup_of_mem_nodup hinv.1 (by rw [show ((q.1, q.2) : _ × _) = q from rfl]; exact hq)
  have hlast := (hinv.2.2 q.1 q.2 hlook).2
  rw [List.nil_append] at hlast
  constructor
  · rcases hq2 with hsrc | hsrc
    · left
      constructor
      · rw [← hsq, hsrc]
      · rw [← hsq]
        simp [hsrc]
    · right
      constructor
      · rw [← hsq, hsrc]
      · rw [← hsq]
        have hne : ¬ (q.2.source = "dictionary".data) := by
          rw [hsrc]; decide
        simp [hne]
  · rw [← hsq]
    show lastAliasSource (build_alias_map cfg) text q.2.canonical = some q.2.source
    rw [hq1]
    exact hlast

/-- C4 witness: the amended source/confidence law applied to the concrete
`react`/`reactjs` extraction. -/
theorem C4_witness :
    ((⟨"react".data, "hard".data, 85/100, "synonym".data⟩ : Skill) ∈
      extract_from_text cfgC4 ("react reactjs".data)) ∧
    ((((⟨"react".data, "hard".data, 85/100, "synonym".data⟩ : Skill).source =
          "dictionary".data ∧
        (⟨"react".data, "hard".data, 85/100, "synonym".data⟩ : Skill).confidence = 9/10) ∨
      ((⟨"react".data, "hard".data, 85/100, "synonym".data⟩ : Skill).source =
          "synonym".data ∧
        (⟨"react".data, "hard".data, 85/100, "synonym".data⟩ : Skill).confidence = 85/100)) ∧
     lastAliasSource (build_alias_map cfgC4) ("react reactjs".data)
        (⟨"react".data, "hard".data, 85/100, "synonym".data⟩ : Skill).name =
       some (⟨"react".data, "hard".data, 85/100, "synonym".data⟩ : Skill).source) :=
  ⟨by decide,
   C4_sources cfgC4 ("react reactjs".data)
     ⟨"react".data, "hard".data, 85/100, "synonym".data⟩ (by decide)⟩

/-! ## Pattern tokens for the section-header regexes

The section regexes of the extractors are phrases of literal characters with
`\s+` between words, optional single characters (`s?`), and small character
classes (`[oó]`).  `PTok` encodes exactly these constructs; matching is
case-insensitive (all the regexes carry `(?i)`), greedy, and ordered — which
coincides with the regexes' backtracking semantics here because no token can
consume a character that could also start the following token. -/

inductive PTok where
  | lit (c : Char)
  | opt (c : Char)
  | ws1
  | cls (cs : List Char)
deriving DecidableEq

/-- Match a token sequence at the start of `t`; returns the rest on success. -/
def ptokMatch : List PTok → List Char → Option (List Char)
  | [], t => some t
  | .lit a :: ps, t =>
    match t with
    | c :: cs => if toLowerC c = a then ptokMatch ps cs else none
    | [] => none
  | .opt a :: ps, t =>
    (match t with
     | c :: cs => if toLowerC c = a then ptokMatch ps cs else none
     | [] => none) <|> ptokMatch ps t
  | .ws1 :: ps, t =>
    match t with
    | c :: cs => if isWsC c then ptokMatch ps (cs.dropWhile isWsC) else none
    | [] => none
  | .cls as :: ps, t =>
    match t with
    | c :: cs => if as.contains (toLowerC c) then ptokMatch ps cs else none
    | [] => none

/-- Literal phrase: a space stands for `\s+`, any other character for itself. -/
def phraseToks (s : List Char) : List PTok :=
  s.map (fun c => if c = ' ' then PTok.ws1 else PTok.lit c)

/-- `re.search`: try the token sequence at every position. -/
def searchToksFrom (ps : List PTok) : List Char → Bool
  | [] => (ptokMatch ps []).isSome
  | c :: cs => (ptokMatch ps (c :: cs)).isSome || searchToksFrom ps cs

/-- Search any of several patterns (the extractors loop over pattern lists). -/
def searchAny (pats : List (List PTok)) (l : List Char) : Bool :=
  pats.any (fun p => searchToksFrom p l)

/-- `re.match` (anchored at the start) for any of several patterns. -/
def anchoredAny (pats : List (List PTok)) (l : List Char) : Bool :=
  pats.any (fun p => (ptokMatch p l).isSome)

/-- `ExperienceExtractor.SECTION_PATTERNS`. -/
def expSectionPats : List (List PTok) :=
  [ phraseToks ("experiência profissional".data),
    phraseToks ("experiência".data) ++ [.opt 's', .ws1] ++
      phraseToks ("profissionai".data) ++ [.opt 's'],
    phraseToks ("histórico profissional".data),
    phraseToks ("trajetória profissional".data),
    phraseToks ("experiência".data),
    phraseToks ("professional experience".data),
    phraseToks ("experience".data),
    phraseToks ("work experience".data),
    phraseToks ("employment history".data),
    phraseToks ("career history".data),
    phraseToks ("professional background".data) ]

/-- `ExperienceExtractor.SECTION_END_PATTERNS`, with each regex's alternation
flattened (only the boolean "any end pattern matches" is used). -/
def expSectionEndPats : List (List PTok) :=
  [ phraseToks ("formação".data), phraseToks ("education".data),
    phraseToks ("academic".data) ++ [.opt 's'],
    phraseToks ("habilidades".data), phraseToks ("skills".data),
    phraseToks ("competências".data),
    phraseToks ("certificações".data), phraseToks ("certifications".data),
    phraseToks ("projetos".data), phraseToks ("projects".data),
    phraseToks ("idiomas".data), phraseToks ("languages".data),
    phraseToks ("resumo".data), phraseToks ("summary".data) ]

/-- `EducationExtractor.SECTION_PATTERNS`. -/
def eduSectionPats : List (List PTok) :=
  [ phraseToks ("formação acadêmica".data),
    phraseToks ("formação".data),
    phraseToks ("educação".data),
    phraseToks ("education".data),
    phraseToks ("academic background".data),
    phraseToks ("academic history".data),
    phraseToks ("escolaridade".data),
    phraseToks ("academic profile".data),
    phraseToks ("studies".data) ]

/-- `EducationExtractor.SECTION_END_PATTERNS` (flattened alternations). -/
def eduSectionEndPats : List (List PTok) :=
  [ phraseToks ("experiência".data), phraseToks ("experience".data),
    phraseToks ("habilidades".data), phraseToks ("skills".data),
    phraseToks ("competências".data),
    phraseToks ("certificações".data), phraseToks ("certifications".data),
    phraseToks ("projetos".data), phraseToks ("projects".data),
    phraseToks ("idiomas".data), phraseToks ("languages".data),
    phraseToks ("resumo".data), phraseToks ("summary".data) ]

/-- Start-of-section scan shared by `_find_experience_section` and
`_find_education_section`: the first line where some pattern matches; the
section starts on the NEXT line (`start_idx = i + 1`). -/
def findStartIdx (pats : List (List PTok)) : List (List Char) → Option Nat
  | [] => none
  | line :: rest =>
    if searchAny pats line then some 1
    else (findStartIdx pats rest).map (· + 1)

/-- Relative index of the first line whose stripped text matches an end
pattern at position 0 (`re.match`). -/
def findEndRel (endPats : List (List PTok)) : List (List Char) → Option Nat
  | [] => none
  | line :: rest =>
    if anchoredAny endPats (stripWs line) then some 0
    else (findEndRel endPats rest).map (· + 1)

/-- The shared body of `_find_experience_section` / `_find_education_section`. -/
def find_section (pats endPats : List (List PTok)) (text : List Char) :
    Option (List Char) :=
  let lines := splitNl text
  match findStartIdx pats lines with
  | none => none
  | some start =>
    let tail := lines.drop start
    let endRel := (findEndRel endPats tail).getD tail.length
    some (joinNl (tail.take endRel))

def find_experience_section (text : List Char) : Option (List Char) :=
  find_section expSectionPats expSectionEndPats text

def find_education_section (text : List Char) : Option (List Char) :=
  find_section eduSectionPats eduSectionEndPats text

/-! ## LLM fallback (`_extract_with_llm` in both extractors)

The LLM client is modelled as `Option (Except (List Char) (List Char))`:
`none` = no client configured, `some (.error e)` = the call raised `e`,
`some (.ok r)` = the call returned response `r`.  The `try/except` of the
source catches every exception and returns `[]`, which is modelled by the
`.error` branch being total. -/

/-- Python `text.split(sep)` for a single-character separator. -/
def splitCh (sep : Char) : List Char → List (List Char)
  | [] => [[]]
  | c :: cs =>
    if c = sep then [] :: splitCh sep cs
    else
      match splitCh sep cs with
      | [] => [[c]]
      | line :: rest => (c :: line) :: rest

/-- The response-parsing loop of `ExperienceExtractor._extract_with_llm`:
skip blank and `#` lines, split on `|`, require ≥ 3 parts. -/
def expLlmParse (response : List Char) : List Experience :=
  (splitCh '\n' response).foldl
    (fun acc rawLine =>
      let line := stripWs rawLine
      if line.isEmpty then acc
      else if (match line with | c :: _ => c == '#' | [] => false) then acc
      else
        let parts := (splitCh '|' line).map stripWs
        if 3 ≤ parts.length then
          acc ++ [⟨parts.getD 0 [],
                  (if (parts.getD 1 []).isEmpty then none else some (parts.getD 1 [])),
                  (if (parts.getD 2 []).isEmpty then none else some (parts.getD 2 [])),
                  (if 3 < parts.length then some (parts.getD 3 []) else none)⟩]
        else acc)
    []

/-- `ExperienceExtractor._extract_with_llm`. -/
def expExtractWithLlm (llm : Option (Except (List Char) (List Char))) :
    List Experience :=
  match llm with
  | none => []
  | some (.error _) => []
  | some (.ok response) =>
    if response.isEmpty || containsSub (pyLower response) ("error".data) then []
    else expLlmParse response

/-- The response-parsing loop of `EducationExtractor._extract_with_llm`:
requires ≥ 2 parts; year from part 3, status from part 4 (lowercased,
default "completed"). -/
def eduLlmParse (response : List Char) : List Education :=
  (splitCh '\n' response).foldl
    (fun acc rawLine =>
      let line := stripWs rawLine
      if line.isEmpty then acc
      else if (match line with | c :: _ => c == '#' | [] => false) then acc
      else
        let parts := (splitCh '|' line).map stripWs
        if 2 ≤ parts.length then
          acc ++ [⟨parts.getD 0 [],
                  (if (parts.getD 1 []).isEmpty then none else some (parts.getD 1 [])),
                  (if 2 < parts.length then some (parts.getD 2 []) else none),
                  (if 3 < parts.length then pyLower (parts.getD 3 [])
                   else "completed".data)⟩]
        else acc)
    []

/-- `EducationExtractor._extract_with_llm`. -/
def eduExtractWithLlm (llm : Option (Except (List Char) (List Char))) :
    List Education :=
  match llm with
  | none => []
  | some (.error _) => []
  | some (.ok response) =>
    if response.isEmpty || containsSub (pyLower response) ("error".data) then []
    else eduLlmParse response

theorem isPrefOf_pyLower {p l : List Char} (h : isPrefOf p l = true) :
    isPrefOf (pyLower p) (pyLower l) = true := by
  induction p generalizing l with
  | nil => rfl
  | cons a as ih =>
    cases l with
    | nil => simp [isPrefOf] at h
    | cons b bs =>
      simp only [isPrefOf, Bool.and_eq_true, beq_iff_eq] at h
      simp only [pyLower, List.map_cons, isPrefOf, Bool.and_eq_true, beq_iff_eq]
      exact ⟨congrArg toLowerC h.1, ih h.2⟩

theorem containsSub_pyLower {hay sub : List Char}
    (h : containsSub hay sub = true) :
    containsSub (pyLower hay) (pyLower sub) = true := by
  induction hay with
  | nil =>
    simp only [containsSub, List.isEmpty_iff] at h
    simp [containsSub, pyLower, h]
  | cons c rest ih =>
    simp only [containsSub, Bool.or_eq_true] at h
    rcases h with h | h
    · have := isPrefOf_pyLower h
      simp only [pyLower, List.map_cons, containsSub, Bool.or_eq_true]
      left
      simpa [pyLower] using this
    · simp only [pyLower, List.map_cons, containsSub, Bool.or_eq_true]
      right
      exact ih h

/-- C7: the LLM fallback of both extractors never propagates a failure: when
the client call raises, the `except` branch returns `[]`; when the response is
empty or contains the substring `"error"`, the guard returns `[]`.  Fallback
failure is always observed as "no LLM-derived data". -/
theorem C7_llm_never_raises :
    (∀ e : List Char,
      expExtractWithLlm (some (.error e)) = [] ∧
      eduExtractWithLlm (some (.error e)) = []) ∧
    (∀ r : List Char,
      r.isEmpty = true ∨ containsSub r ("error".data) = true →
      expExtractWithLlm (some (.ok r)) = [] ∧
      eduExtractWithLlm (some (.ok r)) = []) := by
  constructor
  · intro e
    exact ⟨rfl, rfl⟩
  · intro r h
    have hcond : (r.isEmpty || containsSub (pyLower r) ("error".data)) = true := by
      rcases h with h | h
      · simp [h]
      · have := containsSub_pyLower h
        rw [show pyLower ("error".data) = "error".data from rfl] at this
        simp [this]
    constructor
    · simp only [expExtractWithLlm, hcond, if_true]
    · simp only [eduExtractWithLlm, hcond, if_true]

/-- C7 witness: a raising call and an `"error"`-bearing response both yield
empty extractions. -/
theorem C7_witness :
    (("error: quota exceeded".data).isEmpty = true ∨
      containsSub ("error: quota exceeded".data) ("error".data) = true) ∧
    (expExtractWithLlm (some (.ok ("error: quota exceeded".data))) = [] ∧
     eduExtractWithLlm (some (.ok ("error: quota exceeded".data))) = []) :=
  ⟨by decide, C7_llm_never_raises.2 ("error: quota exceeded".data) (by decide)⟩

/-! ## Requirements extraction (src/parsing/requirements_extractor.py) -/

/-- `requisitos?\s+` — the shared prefix of the required/preferred section
regexes. -/
def reqPrefixToks : List PTok := phraseToks ("requisito".data) ++ [.opt 's', .ws1]

/-- `requisitos?\s+(obrigat[oó]rios?|essenciais?|necess[aá]rios?)`,
alternation distributed over the shared prefix. -/
def requiredPats : List (List PTok) :=
  [ reqPrefixToks ++ phraseToks ("obrigat".data) ++ [.cls ['o', 'ó']] ++
      phraseToks ("rio".data) ++ [.opt 's'],
    reqPrefixToks ++ phraseToks ("essenciai".data) ++ [.opt 's'],
    reqPrefixToks ++ phraseToks ("necess".data) ++ [.cls ['a', 'á']] ++
      phraseToks ("rio".data) ++ [.opt 's'] ]

/-- `requisitos?\s+(desej[aá]veis?|preferenciais?)`. -/
def preferredPats : List (List PTok) :=
  [ reqPrefixToks ++ phraseToks ("desej".data) ++ [.cls ['a', 'á']] ++
      phraseToks ("vei".data) ++ [.opt 's'],
    reqPrefixToks ++ phraseToks ("preferenciai".data) ++ [.opt 's'] ]

/-- `(diferenciais?|nice\s+to\s+have|seria\s+um\s+plus)`. -/
def nicePats : List (List PTok) :=
  [ phraseToks ("diferenciai".data) ++ [.opt 's'],
    phraseToks ("nice to have".data),
    phraseToks ("seria um plus".data) ]

/-- `self.section_patterns`, in dict insertion order. -/
def reqSectionPatterns : List (List Char × List (List PTok)) :=
  [("required".data, requiredPats), ("preferred".data, preferredPats),
   ("nice_to_have".data, nicePats)]

/-- `RequirementsExtractor._identify_sections`: a line matching a section
pattern closes the previous section (kept only if it collected lines) and
starts a new one; other lines accumulate into the current section. -/
def identify_sections (text : List Char) : List (List Char × List Char) :=
  let step := fun (st : Option (List Char) × List (List Char) × List (List Char × List Char))
      (line : List Char) =>
    match reqSectionPatterns.find? (fun p => searchAny p.2 line) with
    | some p =>
      let sections := match st.1 with
        | some cur => if st.2.1.isEmpty then st.2.2 else dictInsert st.2.2 cur (joinNl st.2.1)
        | none => st.2.2
      (some p.1, ([] : List (List Char)), sections)
    | none =>
      match st.1 with
      | some _ => (st.1, st.2.1 ++ [line], st.2.2)
      | none => st
  let fin := (splitNl text).foldl step (none, [], [])
  match fin.1 with
  | some cur => if fin.2.1.isEmpty then fin.2.2 else dictInsert fin.2.2 cur (joinNl fin.2.1)
  | none => fin.2.2

/-- `known_hard_skills`: the lowered terms of the nested hard_skills config
(a Python set; only membership is relevant, so it is modelled as a
deduplicated list). -/
def knownHardReq (cfg : SkillsConfig) : List (List Char) := keysHard cfg

/-- `known_soft_skills = set(s.lower() for s in config.get("soft_skills", []))`:
iterating the nested soft_skills DICT yields its keys, so this set contains
the lowered GROUP NAMES, not the soft skill terms (faithful to the source). -/
def knownSoftReq (cfg : SkillsConfig) : List (List Char) :=
  cfg.soft_skills.foldl (fun ks g => addKey ks (pyLower g.1)) []

/-- One attempt of `\b{skill}\b` at the current position: a word boundary
before the first character, the literal (already lowercased) skill, and a word
boundary after the last character. -/
def wbMatchAt (pat : List Char) (prev : Option Char) (t : List Char) : Bool :=
  match pat with
  | [] => false
  | p0 :: _ =>
    let bw := match prev with | none => false | some c => isWordC c
    (bw != isWordC p0) && isPrefOf pat t &&
    (let lw := match pat.reverse with | c :: _ => isWordC c | [] => false
     match t.drop pat.length with
     | [] => lw
     | d :: _ => lw != isWordC d)

def wbFrom (pat : List Char) : Option Char → List Char → Bool
  | _, [] => false
  | prev, c :: cs => wbMatchAt pat prev (c :: cs) || wbFrom pat (some c) cs

/-- `re.search(r"\b" + re.escape(skill) + r"\b", text_lower)` as a boolean. -/
def wbSearch (pat text : List Char) : Bool := wbFrom pat none text

/-- `RequirementsExtractor._extract_requirements_from_section`. -/
def extract_requirements_from_section (cfg : SkillsConfig)
    (section_text importance : List Char) : List JobRequirement :=
  let text_lower := pyLower section_text
  let reqs := (knownHardReq cfg).foldl
    (fun acc sk =>
      if wbSearch sk text_lower then acc ++ [⟨sk, importance, 1, "hard".data⟩]
      else acc) []
  (knownSoftReq cfg).foldl
    (fun acc sk =>
      if wbSearch sk text_lower then acc ++ [⟨sk, importance, 1, "soft".data⟩]
      else acc) reqs

/-- `RequirementsExtractor.extract_from_job`. -/
def extract_from_job (cfg : SkillsConfig) (job : JobProfile) : JobProfile :=
  let sections := identify_sections job.raw_text
  { job with
    requirements := sections.foldl
      (fun reqs s => reqs ++ extract_requirements_from_section cfg s.2 s.1)
      job.requirements }

/-! ### Lemmas: membership through the requirement folds -/

theorem foldl_select_mono {α β : Type} (cond : α → Bool) (g : α → β) :
    ∀ (l : List α) (acc : List β) (x : β), x ∈ acc →
      x ∈ l.foldl (fun acc sk => if cond sk then acc ++ [g sk] else acc) acc := by
  intro l
  induction l with
  | nil => intro acc x h; exact h
  | cons s ss ih =>
    intro acc x h
    rw [List.foldl_cons]
    apply ih
    split
    · exact List.mem_append_left _ h
    · exact h

theorem foldl_select_mem {α β : Type} (cond : α → Bool) (g : α → β) :
    ∀ (l : List α) (acc : List β) (t : α), t ∈ l → cond t = true →
      g t ∈ l.foldl (fun acc sk => if cond sk then acc ++ [g sk] else acc) acc := by
  intro l
  induction l with
  | nil => intro acc t h; simp at h
  | cons s ss ih =>
    intro acc t ht hc
    rw [List.foldl_cons]
    rcases List.mem_cons.mp ht with ht | ht
    · subst ht
      apply foldl_select_mono
      rw [if_pos hc]
      exact List.mem_append_right _ (List.mem_singleton.mpr rfl)
    · exact ih _ t ht hc

theorem foldl_concat_mono {α β : Type} (f : α → List β) :
    ∀ (l : List α) (acc : List β) (x : β), x ∈ acc →
      x ∈ l.foldl (fun acc s => acc ++ f s) acc := by
  intro l
  induction l with
  | nil => intro acc x h; exact h
  | cons s ss ih =>
    intro acc x h
    rw [List.foldl_cons]
    exact ih _ x (List.mem_append_left _ h)

theorem foldl_concat_mem {α β : Type} (f : α → List β) :
    ∀ (l : List α) (acc : List β) (s : α) (x : β), s ∈ l → x ∈ f s →
      x ∈ l.foldl (fun acc s => acc ++ f s) acc := by
  intro l
  induction l with
  | nil => intro acc s x h; simp at h
  | cons a as ih =>
    intro acc s x hs hx
    rw [List.foldl_cons]
    rcases List.mem_cons.mp hs with hs | hs
    · subst hs
      exact foldl_concat_mono f as _ x (List.mem_append_right _ hx)
    · exact ih _ s x hs hx

theorem mem_extract_requirements_hard {cfg : SkillsConfig}
    {sec importance term : List Char} (hterm : term ∈ knownHardReq cfg)
    (hmatch : wbSearch term (pyLower sec) = true) :
    (⟨term, importance, 1, "hard".data⟩ : JobRequirement) ∈
      extract_requirements_from_section cfg sec importance := by
  unfold extract_requirements_from_section
  apply foldl_select_mono
  exact foldl_select_mem _ _ _ _ term hterm hmatch

/-- C8: no deduplication across importance tiers — a configured hard skill
term matching as a whole word in both the `required` and `preferred` section
texts yields one JobRequirement entry per tier, each with weight 1.0. -/
theorem C8_no_dedup (cfg : SkillsConfig) (job : JobProfile) (term rt pt : List Char)
    (hterm : term ∈ knownHardReq cfg)
    (hreq : alookup (identify_sections job.raw_text) ("required".data) = some rt)
    (hpref : alookup (identify_sections job.raw_text) ("preferred".data) = some pt)
    (hmr : wbSearch term (pyLower rt) = true)
    (hmp : wbSearch term (pyLower pt) = true) :
    (⟨term, "required".data, 1, "hard".data⟩ : JobRequirement) ∈
      (extract_from_job cfg job).requirements ∧
    (⟨term, "preferred".data, 1, "hard".data⟩ : JobRequirement) ∈
      (extract_from_job cfg job).requirements := by
  have hr : ("required".data, rt) ∈ identify_sections job.raw_text := alookup_mem hreq
  have hp : ("preferred".data, pt) ∈ identify_sections job.raw_text := alookup_mem hpref
  constructor
  · exact foldl_concat_mem _ _ _ _ _ hr (mem_extract_requirements_hard hterm hmr)
  · exact foldl_concat_mem _ _ _ _ _ hp (mem_extract_requirements_hard hterm hmp)

def cfgC8 : SkillsConfig := ⟨[("langs".data, ["Python".data])], [], []⟩

def jobC8 : JobProfile :=
  ⟨"Dev".data, [],
   ("Requisitos obrigatórios:\npython\nRequisitos desejáveis:\npython").data, []⟩

/-- C8 witness: a job text with `python` under both `Requisitos obrigatórios`
and `Requisitos desejáveis` yields one entry per tier. -/
theorem C8_witness :
    (("python".data) ∈ knownHardReq cfgC8 ∧
     alookup (identify_sections jobC8.raw_text) ("required".data) =
       some ("python".data) ∧
     alookup (identify_sections jobC8.raw_text) ("preferred".data) =
       some ("python".data) ∧
     wbSearch ("python".data) (pyLower ("python".data)) = true) ∧
    ((⟨"python".data, "required".data, 1, "hard".data⟩ : JobRequirement) ∈
      (extract_from_job cfgC8 jobC8).requirements ∧
     (⟨"python".data, "preferred".data, 1, "hard".data⟩ : JobRequirement) ∈
      (extract_from_job cfgC8 jobC8).requirements) :=
  ⟨⟨by decide, by decide, by decide, by decide⟩,
   C8_no_dedup cfgC8 jobC8 ("python".data) ("python".data) ("python".data)
     (by decide) (by decide) (by decide) (by decide) (by decide)⟩

/-! ## Extraction pipelines for near-empty input (C6)

The block-splitting and block-parsing stage of the two extractors
(`_split_into_blocks` / `_parse_experience_block`) runs only when a section
header was found; it is abstracted below as a `parseSection` parameter, and
the near-empty-input theorem holds for EVERY instantiation of it. -/

/-- `ExperienceExtractor._extract_with_regex`: empty when no experience
section is found (Python's `if not section_text` also catches an empty
section). -/
def exp_extract_with_regex (parseSection : List Char → List Experience)
    (text : List Char) : List Experience :=
  match find_experience_section text with
  | none => []
  | some sec => if sec.isEmpty then [] else parseSection sec

/-- `EducationExtractor._extract_with_regex`. -/
def edu_extract_with_regex (parseSection : List Char → List Education)
    (text : List Char) : List Education :=
  match find_education_section text with
  | none => []
  | some sec => if sec.isEmpty then [] else parseSection sec

/-- The text variants tried by `extract_from_candidate` of both extractors:
the raw text if non-empty, then the normalized text if non-empty and
different. -/
def candVariants (cand : Candidate) : List (List Char) :=
  let v1 := if cand.raw_text.isEmpty then [] else [cand.raw_text]
  match cand.normalized_text with
  | some n => if ¬n.isEmpty ∧ ¬(v1.contains n) then v1 ++ [n] else v1
  | none => v1

/-- `ExperienceExtractor.extract_from_candidate`: first regex extraction over
the variants (stopping at the first non-empty result), then the LLM fallback
when nothing was found. -/
def exp_extract_from_candidate (parseSection : List Char → List Experience)
    (llm : Option (Except (List Char) (List Char))) (cand : Candidate) :
    List Experience :=
  let regexResult := (candVariants cand).foldl
    (fun acc v => if acc.isEmpty then exp_extract_with_regex parseSection v else acc) []
  if regexResult.isEmpty then expExtractWithLlm llm else regexResult

/-- `EducationExtractor.extract_from_candidate`. -/
def edu_extract_from_candidate (parseSection : List Char → List Education)
    (llm : Option (Except (List Char) (List Char))) (cand : Candidate) :
    List Education :=
  let regexResult := (candVariants cand).foldl
    (fun acc v => if acc.isEmpty then edu_extract_with_regex parseSection v else acc) []
  if regexResult.isEmpty then eduExtractWithLlm llm else regexResult

/-! ### Lemmas: nothing matches whitespace-only text -/

theorem toLowerC_ws {c : Char} (h : isWsC c = true) : toLowerC c = c := by
  have hc : c = ' ' ∨ c = '\t' ∨ c = '\n' ∨ c = '\r' ∨ c = '\x0b' ∨ c = '\x0c' := by
    simpa [isWsC, or_assoc] using h
  rcases hc with rfl | rfl | rfl | rfl | rfl | rfl <;> decide

theorem matchAliasLen_ws_none {pat t : List Char}
    (hpat : ∃ c0 ∈ pat, isWsC c0 = false) (ht : ∀ c ∈ t, isWsC c = true) :
    matchAliasLen pat t = none := by
  induction pat generalizing t with
  | nil => obtain ⟨c0, hc0, _⟩ := hpat; simp at hc0
  | cons a as ih =>
    obtain ⟨c0, hc0, hc0w⟩ := hpat
    by_cases ha : a = ' '
    · subst ha
      have hc0as : c0 ∈ as := by
        rcases List.mem_cons.mp hc0 with h | h
        · subst h; simp [isWsC] at hc0w
        · exact h
      cases t with
      | nil => rfl
      | cons c cs =>
        have hred : matchAliasLen (' ' :: as) (c :: cs) =
            if isWsC c then
              (matchAliasLen as (cs.dropWhile isWsC)).map
                (fun n => n + 1 + (cs.takeWhile isWsC).length)
            else none := by
          simp [matchAliasLen]
        rw [hred]
        by_cases hwc : isWsC c = true
        · rw [if_pos hwc]
          have hdrop : cs.dropWhile isWsC = [] := by
            rw [List.dropWhile_eq_nil_iff]
            intro x hx
            exact ht x (List.mem_cons_of_mem _ hx)
          rw [hdrop, ih ⟨c0, hc0as, hc0w⟩ (by intro x hx; simp at hx)]
          rfl
        · rw [if_neg hwc]
    · cases t with
      | nil => simp [matchAliasLen, ha]
      | cons c cs =>
        have hred : matchAliasLen (a :: as) (c :: cs) =
            if toLowerC c = a then (matchAliasLen as cs).map (· + 1) else none := by
          simp [matchAliasLen, ha]
        rw [hred]
        have hwc : isWsC c = true := ht c (List.mem_cons_self _ _)
        by_cases heq : toLowerC c = a
        · rw [if_pos heq]
          rw [toLowerC_ws hwc] at heq
          have haw : isWsC a = true := heq ▸ hwc
          have hc0as : c0 ∈ as := by
            rcases List.mem_cons.mp hc0 with h | h
            · subst h; rw [haw] at hc0w; exact absurd hc0w (by simp)
            · exact h
          rw [ih ⟨c0, hc0as, hc0w⟩ (fun x hx => ht x (List.mem_cons_of_mem _ hx))]
          rfl
        · rw [if_neg heq]

theorem hitsFrom_ws_zero {pat : List Char}
    (hpat : ∃ c0 ∈ pat, isWsC c0 = false) :
    ∀ (fuel : Nat) (prev : Option Char) (t : List Char),
      (∀ c ∈ t, isWsC c = true) → hitsFrom pat fuel prev t = 0 := by
  intro fuel
  induction fuel with
  | zero => intro prev t _; rfl
  | succ n ih =>
    intro prev t ht
    cases t with
    | nil => rfl
    | cons c cs =>
      have hmal : matchAliasLen pat (c :: cs) = none := matchAliasLen_ws_none hpat ht
      have hred : hitsFrom pat (n + 1) prev (c :: cs) = hitsFrom pat n (some c) cs := by
        simp [hitsFrom, hmal]
      rw [hred]
      exact ih (some c) cs (fun x hx => ht x (List.mem_cons_of_mem _ hx))

theorem countHits_ws_zero {pat text : List Char}
    (hpat : ∃ c0 ∈ pat, isWsC c0 = false) (ht : ∀ c ∈ text, isWsC c = true) :
    countHits pat text = 0 :=
  hitsFrom_ws_zero hpat text.length none text ht

theorem skillFold_no_hits {cfg : SkillsConfig} {text : List Char} :
    ∀ (l : List (List Char × List Char)) (ms : List (List Char × SkillMatch)),
      (∀ p ∈ l, countHits p.1 text = 0) → l.foldl (skillStep cfg text) ms = ms := by
  intro l
  induction l with
  | nil => intro ms _; rfl
  | cons p rest ih =>
    intro ms h
    rw [List.foldl_cons,
      show skillStep cfg text ms p = ms by
        simp [skillStep, h p (List.mem_cons_self _ _)]]
    exact ih ms (fun q hq => h q (List.mem_cons_of_mem _ hq))

theorem extract_from_text_ws_empty {cfg : SkillsConfig} {text : List Char}
    (hal : ∀ p ∈ build_alias_map cfg, ∃ c0 ∈ p.1, isWsC c0 = false)
    (ht : ∀ c ∈ text, isWsC c = true) :
    extract_from_text cfg text = [] := by
  unfold extract_from_text
  rw [skillFold_no_hits (build_alias_map cfg) []
    (fun p hp => countHits_ws_zero (hal p hp) ht)]
  rfl

/-- A pattern starting with a literal non-whitespace character. -/
def headNonWsLit (ps : List PTok) : Bool :=
  match ps with
  | .lit a :: _ => !isWsC a
  | _ => false

theorem searchToks_ws_false {ps : List PTok} (h : headNonWsLit ps = true)
    {t : List Char} (ht : ∀ c ∈ t, isWsC c = true) :
    searchToksFrom ps t = false := by
  obtain ⟨a, ps', rfl, haw⟩ : ∃ a ps', ps = .lit a :: ps' ∧ isWsC a = false := by
    cases ps with
    | nil => simp [headNonWsLit] at h
    | cons tk rest =>
      cases tk with
      | lit a => exact ⟨a, rest, rfl, by simpa [headNonWsLit] using h⟩
      | opt a => simp [headNonWsLit] at h
      | ws1 => simp [headNonWsLit] at h
      | cls cs => simp [headNonWsLit] at h
  induction t with
  | nil => rfl
  | cons c cs ih =>
    have hwc : isWsC c = true := ht c (List.mem_cons_self _ _)
    have hne : ¬ (toLowerC c = a) := by
      rw [toLowerC_ws hwc]
      intro hc
      rw [hc, haw] at hwc
      exact absurd hwc (by simp)
    show ((ptokMatch (.lit a :: ps') (c :: cs)).isSome ||
      searchToksFrom (.lit a :: ps') cs) = false
    rw [show ptokMatch (.lit a :: ps') (c :: cs) =
        (if toLowerC c = a then ptokMatch ps' cs else none) from rfl,
      if_neg hne]
    simpa using ih (fun x hx => ht x (List.mem_cons_of_mem _ hx))

theorem searchAny_ws_false {pats : List (List PTok)}
    (hpats : ∀ p ∈ pats, headNonWsLit p = true)
    {line : List Char} (hl : ∀ c ∈ line, isWsC c = true) :
    searchAny pats line = false := by
  unfold searchAny
  rw [List.any_eq_false]
  intro p hp
  rw [searchToks_ws_false (hpats p hp) hl]
  simp

theorem findStartIdx_ws_none {pats : List (List PTok)}
    (hpats : ∀ p ∈ pats, headNonWsLit p = true) :
    ∀ (lines : List (List Char)),
      (∀ l ∈ lines, ∀ c ∈ l, isWsC c = true) → findStartIdx pats lines = none := by
  intro lines
  induction lines with
  | nil => intro _; rfl
  | cons line rest ih =>
    intro h
    unfold findStartIdx
    rw [if_neg, ih (fun l hl c hc => h l (List.mem_cons_of_mem _ hl) c hc)]
    · rfl
    · rw [searchAny_ws_false hpats (h line (List.mem_cons_self _ _))]
      simp

theorem find_section_ws_none {pats endPats : List (List PTok)}
    (hpats : ∀ p ∈ pats, headNonWsLit p = true)
    {text : List Char} (ht : ∀ c ∈ text, isWsC c = true) :
    find_section pats endPats text = none := by
  unfold find_section
  have h0 := findStartIdx_ws_none hpats (splitNl text)
    (fun l hl c hc => ht c (mem_of_mem_splitNl hl hc))
  simp only [h0]

theorem find_experience_section_ws {text : List Char}
    (ht : ∀ c ∈ text, isWsC c = true) : find_experience_section text = none :=
  find_section_ws_none (by decide) ht

theorem find_education_section_ws {text : List Char}
    (ht : ∀ c ∈ text, isWsC c = true) : find_education_section text = none :=
  find_section_ws_none (by decide) ht

/-- A freshly parsed candidate (before any extraction succeeded). -/
def mkParsedCand (nm text : List Char) : Candidate :=
  ⟨nm, text, none, [], [], [], [], 0, ⟨0, 0, 0, 0, [], []⟩⟩

/-- C6: for whitespace-only (near-empty) resume text, experience and education
extraction return `[]` (for every instantiation of the block-parsing stage,
with no LLM client), skill extraction returns `[]` (for any config whose
aliases contain a non-whitespace character), scoring such a candidate gives
score 0.0, and `rank_candidates` never drops a candidate: the output has the
same length and contains every scored candidate.  All modelled functions are
total, so no exception can be raised. -/
theorem C6_near_empty (nm text : List Char) (cfg : SkillsConfig)
    (hws : ∀ c ∈ text, isWsC c = true)
    (hal : ∀ p ∈ build_alias_map cfg, ∃ c0 ∈ p.1, isWsC c0 = false) :
    (∀ ps : List Char → List Experience,
      exp_extract_from_candidate ps none (mkParsedCand nm text) = []) ∧
    (∀ ps : List Char → List Education,
      edu_extract_from_candidate ps none (mkParsedCand nm text) = []) ∧
    extract_from_text cfg text = [] ∧
    (∀ (wcfg : WeightsConfig) (cy : ℤ) (job : Option JobProfile),
      (score_candidate wcfg cy job (mkParsedCand nm text)).score = 0) ∧
    (∀ (wcfg : WeightsConfig) (cy : ℤ) (job : Option JobProfile)
        (cands : List Candidate),
      (rank_candidates wcfg cy job cands).length = cands.length ∧
      ∀ c ∈ cands,
        score_candidate wcfg cy job c ∈ rank_candidates wcfg cy job cands) := by
  have hfindE : find_experience_section text = none := find_experience_section_ws hws
  have hfindD : find_education_section text = none := find_education_section_ws hws
  refine ⟨?_, ?_, extract_from_text_ws_empty hal hws, ?_, ?_⟩
  · intro ps
    have hregex : exp_extract_with_regex ps text = [] := by
      unfold exp_extract_with_regex
      rw [hfindE]
    unfold exp_extract_from_candidate
    by_cases htext : text.isEmpty
    · simp [candVariants, mkParsedCand, htext, expExtractWithLlm]
    · simp [candVariants, mkParsedCand, htext, hregex, expExtractWithLlm]
  · intro ps
    have hregex : edu_extract_with_regex ps text = [] := by
      unfold edu_extract_with_regex
      rw [hfindD]
    unfold edu_extract_from_candidate
    by_cases htext : text.isEmpty
    · simp [candVariants, mkParsedCand, htext, eduExtractWithLlm]
    · simp [candVariants, mkParsedCand, htext, hregex, eduExtractWithLlm]
  · intro wcfg cy job
    have h1 : (score_candidate wcfg cy job (mkParsedCand nm text)).score =
        round2 (0 + 0 + 0 + 0) := rfl
    rw [h1, show ((0:ℚ) + 0 + 0 + 0) = 0 by norm_num, round2_zero]
  · intro wcfg cy job cands
    unfold rank_candidates
    constructor
    · rw [(sortDesc_perm _).length_eq, List.length_map]
    · intro c hc
      exact (sortDesc_perm _).mem_iff.mpr (List.mem_map_of_mem _ hc)

/-- C6 witness: whitespace-only text with the react/reactjs skills config. -/
theorem C6_witness :
    ((∀ c ∈ ("  \n\t ".data), isWsC c = true) ∧
     (∀ p ∈ build_alias_map cfgC4, ∃ c0 ∈ p.1, isWsC c0 = false)) ∧
    ((∀ ps : List Char → List Experience,
       exp_extract_from_candidate ps none (mkParsedCand ("X".data) ("  \n\t ".data)) = []) ∧
     (∀ ps : List Char → List Education,
       edu_extract_from_candidate ps none (mkParsedCand ("X".data) ("  \n\t ".data)) = []) ∧
     extract_from_text cfgC4 ("  \n\t ".data) = [] ∧
     (∀ (wcfg : WeightsConfig) (cy : ℤ) (job : Option JobProfile),
       (score_candidate wcfg cy job (mkParsedCand ("X".data) ("  \n\t ".data))).score = 0) ∧
     (∀ (wcfg : WeightsConfig) (cy : ℤ) (job : Option JobProfile)
         (cands : List Candidate),
       (rank_candidates wcfg cy job cands).length = cands.length ∧
       ∀ c ∈ cands,
         score_candidate wcfg cy job c ∈ rank_candidates wcfg cy job cands)) :=
  ⟨⟨by decide, by decide⟩,
   C6_near_empty ("X".data) ("  \n\t ".data) cfgC4 (by decide) (by decide)⟩

/-! ## Education block parsing (education_extractor.py)

`_parse_education_block` and its helpers `_extract_degree`,
`_extract_institution`, `_extract_year`, `_sanitize_year_token` and
`_extract_status`.  The year patterns are
`SINGLE_YEAR_PATTERN = (?:19|20)\d{2}`,
`EXPECTED_YEAR_PATTERN = (?:expected|previsto|prevista|graduation|class of)\D*((?:19|20)\d{2})`
(IGNORECASE) and the education `DATE_RANGE_PATTERN`
`(?P<start>MONTH?[\s/.-]*\d{4}|\d{4})\s*(?:[-–—]|até|a|to|until)\s*(?P<end>MONTH?[\s/.-]*\d{4}|\d{4}|atual|present|current|ongoing)`
(IGNORECASE), which differs from the experience pattern in allowing the
`[\s/.-]*` separators without a month and in the extra `until` separator. -/

/-- `(?:19|20)\d{2}` anchored at the current position; returns the year value. -/
def singleYearAt : List Char → Option Nat
  | a :: b :: c :: d :: _ =>
    if ((a = '1' ∧ b = '9') ∨ (a = '2' ∧ b = '0')) ∧ c.isDigit ∧ d.isDigit then
      some (digitVal a * 1000 + digitVal b * 100 + digitVal c * 10 + digitVal d)
    else none
  | _ => none

/-- `SINGLE_YEAR_PATTERN.search`. -/
def findSingleYear : List Char → Option Nat
  | [] => none
  | c :: cs =>
    match singleYearAt (c :: cs) with
    | some y => some y
    | none => findSingleYear cs

/-- `SINGLE_YEAR_PATTERN.findall`: non-overlapping left-to-right matches.
Fuel-based: every step consumes at least one character, so `l.length` fuel
always suffices. -/
def findAllYearsAux : Nat → List Char → List Nat
  | 0, _ => []
  | _ + 1, [] => []
  | fuel + 1, c :: cs =>
    match singleYearAt (c :: cs) with
    | some y => y :: findAllYearsAux fuel (cs.drop 3)
    | none => findAllYearsAux fuel cs

def findAllYears (l : List Char) : List Nat := findAllYearsAux l.length l

/-- The keyword alternation of `EXPECTED_YEAR_PATTERN`, in the regex's order.
The alternatives are pairwise non-prefix-compatible on any fixed text, so
ordered first-match is faithful. -/
def expectedKws : List (List Char) :=
  ["expected".data, "previsto".data, "prevista".data, "graduation".data,
   "class of".data]

/-- One attempt of `EXPECTED_YEAR_PATTERN` at the current position: a keyword,
then `\D*` (greedy: runs exactly to the first digit, and `(?:19|20)\d{2}`
cannot start at a non-digit, so no backtracking), then the year group. -/
def expectedMatchAt (l : List Char) : Option Nat :=
  (expectedKws.find? (fun k => isPrefCI k l)).bind (fun k =>
    singleYearAt ((l.drop k.length).dropWhile (fun c => !c.isDigit)))

/-- `EXPECTED_YEAR_PATTERN.search`, returning the captured year's value. -/
def expectedSearch : List Char → Option Nat
  | [] => none
  | c :: cs =>
    match expectedMatchAt (c :: cs) with
    | some y => some y
    | none => expectedSearch cs

/-- The `start` group of the education `DATE_RANGE_PATTERN`:
`MONTH?[\s/.-]*\d{4}|\d{4}`.  When the month alternative fails the fallback
starts at the same position, whose head is then not a month letter, so
`dropWhile isDateSep` faithfully renders the `MONTH?`-absent backtrack (and
the bare `\d{4}` alternative is subsumed by an empty separator run). -/
def eduStartMatch (l : List Char) : Option (List Char) :=
  match monthMatch l with
  | some rest =>
    match year4 (rest.dropWhile isDateSep) with
    | some (_, r) => some r
    | none => (year4 (l.dropWhile isDateSep)).map (fun p => p.2)
  | none => (year4 (l.dropWhile isDateSep)).map (fun p => p.2)

/-- `\s*(?:[-–—]|até|a|to|until)\s*` (the education range separator: the
experience one plus `until`). -/
def eduSepMatch (l : List Char) : Option (List Char) :=
  let l1 := l.dropWhile isWsC
  let afterKw : Option (List Char) :=
    match l1 with
    | c :: rest =>
      if c = '-' ∨ c = '–' ∨ c = '—' then some rest
      else if isPrefCI ("até".data) l1 then some (l1.drop 3)
      else if isPrefCI ("a".data) l1 then some (l1.drop 1)
      else if isPrefCI ("to".data) l1 then some (l1.drop 2)
      else if isPrefCI ("until".data) l1 then some (l1.drop 5)
      else none
    | [] => none
  afterKw.map (fun r => r.dropWhile isWsC)

/-- The month-less alternatives of the education `end` group:
`[\s/.-]*\d{4}` (leading separators are part of the token) or a keyword. -/
def eduEndNoMonth (l : List Char) : Option EndTok :=
  match year4 (l.dropWhile isDateSep) with
  | some (y, r) => some (.yr y (l.take (l.length - r.length)))
  | none =>
    if isPrefCI ("atual".data) l then some (.word (l.take 5))
    else if isPrefCI ("present".data) l then some (.word (l.take 7))
    else if isPrefCI ("current".data) l then some (.word (l.take 7))
    else if isPrefCI ("ongoing".data) l then some (.word (l.take 7))
    else none

/-- The `end` group of the education `DATE_RANGE_PATTERN`:
`MONTH?[\s/.-]*\d{4}|\d{4}|atual|present|current|ongoing`, with the token text
recorded.  If the month alternative fails, the position's head is a month
letter, so the month-less fallback cannot spuriously succeed differently from
the regex's backtracking. -/
def eduEndMatch (l : List Char) : Option EndTok :=
  match monthMatch l with
  | some rest =>
    match year4 (rest.dropWhile isDateSep) with
    | some (y, r) => some (.yr y (l.take (l.length - r.length)))
    | none => eduEndNoMonth l
  | none => eduEndNoMonth l

/-- One attempt of the education `DATE_RANGE_PATTERN` at the current position;
only the `end` group is consumed by `_extract_year`. -/
def eduDateMatchAt (l : List Char) : Option EndTok :=
  match eduStartMatch l with
  | none => none
  | some r1 =>
    match eduSepMatch r1 with
    | none => none
    | some r2 => eduEndMatch r2

/-- `DATE_RANGE_PATTERN.search` (education). -/
def eduDateSearch : List Char → Option EndTok
  | [] => none
  | c :: cs =>
    match eduDateMatchAt (c :: cs) with
    | some e => some e
    | none => eduDateSearch cs

/-- The text of an `end` token (`match.group("end")`). -/
def endTokText : EndTok → List Char
  | .yr _ t => t
  | .word w => w

/-- The plausibility bound of `_sanitize_year_token`:
`1960 <= year <= current_year + 5`. -/
def yearOk (cy : ℤ) (y : Nat) : Bool :=
  decide (1960 ≤ (y : ℤ) ∧ (y : ℤ) ≤ cy + 5)

/-- `EducationExtractor._sanitize_year_token` (with `datetime.now().year`
passed as `cy`).  The returned string `str(year)` is modelled by the year's
value; `parse_education_block` renders it back with `Nat.repr`, which agrees
with `str` on these four-digit values. -/
def sanitize_year_token (cy : ℤ) (token : List Char) : Option Nat :=
  if token.isEmpty then none
  else
    match findSingleYear token with
    | none => none
    | some y => if yearOk cy y then some y else none

/-- `EducationExtractor._extract_year`: date range end token, then the
expected-year pattern, then the single-year matches scanned in reverse.  In
the second stage the code sanitizes the captured group, which is exactly a
`(19|20)\d{2}` string, so `_sanitize_year_token` reduces to the `yearOk`
bound on its value; the third stage likewise sanitizes each 4-digit token. -/
def edu_extract_year (cy : ℤ) (text : List Char) : Option Nat :=
  let fromRange : Option Nat :=
    match eduDateSearch text with
    | some e => sanitize_year_token cy (endTokText e)
    | none => none
  match fromRange with
  | some y => some y
  | none =>
    let fromExpected : Option Nat :=
      match expectedSearch text with
      | some y => if yearOk cy y then some y else none
      | none => none
    match fromExpected with
    | some y => some y
    | none =>
      (findAllYears text).reverse.findSome?
        (fun y => if yearOk cy y then some y else none)

/-- `STATUS_PATTERNS`, in dict insertion order. -/
def statusPatterns : List (List Char × List (List Char)) :=
  [("completed".data,
    ["completo".data, "concluído".data, "concluded".data, "completed".data,
     "formado".data, "graduated".data, "finished".data]),
   ("in_progress".data,
    ["cursando".data, "em andamento".data, "in progress".data, "current".data,
     "presente".data, "ongoing".data, "currently enrolled".data,
     "studying".data, "expected".data, "previsto".data]),
   ("incomplete".data,
    ["incompleto".data, "trancado".data, "incomplete".data,
     "discontinued".data, "dropped".data, "paused".data])]

/-- `EducationExtractor._extract_status`: first status (in dict order) one of
whose keywords is a substring of the lowered text; otherwise `completed` /
`in_progress` by comparing an extracted year with the current year; otherwise
`"completed"`. -/
def extract_status (cy : ℤ) (text : List Char) : List Char :=
  let text_lower := pyLower text
  match statusPatterns.find? (fun sp => sp.2.any (fun p => containsSub text_lower p)) with
  | some sp => sp.1
  | none =>
    match edu_extract_year cy text with
    | some y => if (y : ℤ) ≤ cy then "completed".data else "in_progress".data
    | none => "completed".data

/-- `DEGREE_PATTERNS`, in dict insertion order. -/
def degreePatterns : List (List Char × List (List Char)) :=
  [("doutorado".data,
    ["doutorado".data, "doctorado".data, "phd".data, "ph.d".data,
     "doctorate".data, "doctor of philosophy".data]),
   ("mestrado".data,
    ["mestrado".data, "master".data, "msc".data, "m.sc".data, "m.s".data,
     "ms".data, "master of science".data, "master of engineering".data]),
   ("mba".data,
    ["mba".data, "master of business".data, "executive mba".data]),
   ("especialização".data,
    ["especialização".data, "pós-graduação".data, "postgraduate".data,
     "especialista".data, "lato sensu".data, "certificate program".data]),
   ("bacharelado".data,
    ["bacharelado".data, "bachelor".data, "b.sc".data, "b.s".data, "b.a".data,
     "b.s.".data, "b.a.".data, "graduação".data, "undergraduate".data,
     "superior completo".data]),
   ("licenciatura".data,
    ["licenciatura".data, "licentiate".data, "teaching degree".data,
     "b.ed".data]),
   ("tecnólogo".data,
    ["tecnólogo".data, "technology degree".data, "tecnologia".data,
     "cst".data, "curso superior de tecnologia".data,
     "associate of applied science".data, "aas".data]),
   ("técnico".data,
    ["técnico".data, "technical course".data, "ensino técnico".data,
     "vocational".data, "trade school".data]),
   ("ensino médio".data,
    ["ensino médio".data, "high school".data, "secondary".data,
     "secundário".data, "highschool".data])]

/-- All degree patterns flattened (`for patterns in values() for pattern in
patterns`). -/
def allDegreePats : List (List Char) := (degreePatterns.map (fun dp => dp.2)).flatten

/-- ASCII + accented uppercase mapping (Python `str.upper()` on the characters
reaching `str.capitalize()` here: the `DEGREE_PATTERNS` keys). -/
def toUpperC (c : Char) : Char :=
  match c with
  | 'á' => 'Á' | 'à' => 'À' | 'â' => 'Â' | 'ã' => 'Ã'
  | 'é' => 'É' | 'ê' => 'Ê' | 'í' => 'Í'
  | 'ó' => 'Ó' | 'ô' => 'Ô' | 'õ' => 'Õ'
  | 'ú' => 'Ú' | 'ç' => 'Ç'
  | _ => if c.isLower then Char.ofNat (c.toNat - 32) else c

/-- Python `str.capitalize()`: first character uppercased, the rest lowered. -/
def pyCapitalize (l : List Char) : List Char :=
  match l with
  | [] => []
  | c :: cs => toUpperC c :: pyLower cs

/-- `re.sub(r"\|\s*\d{4}", "", s)`: remove every non-overlapping occurrence of
a pipe, optional whitespace and exactly four digits.  Fuel-based scan; each
step consumes at least one character. -/
def subPipeYearAux : Nat → List Char → List Char
  | 0, l => l
  | _ + 1, [] => []
  | fuel + 1, c :: cs =>
    if c = '|' then
      match year4 (cs.dropWhile isWsC) with
      | some (_, r) => subPipeYearAux fuel r
      | none => c :: subPipeYearAux fuel cs
    else c :: subPipeYearAux fuel cs

def subPipeYear (l : List Char) : List Char := subPipeYearAux l.length l

/-- One attempt of `\d{4}\s*[-–—]\s*\d{4}` at the current position; returns
the rest after the match. -/
def yearRangeMatch (l : List Char) : Option (List Char) :=
  match year4 l with
  | none => none
  | some (_, r1) =>
    match r1.dropWhile isWsC with
    | c :: r2 =>
      if c = '-' ∨ c = '–' ∨ c = '—' then
        (year4 (r2.dropWhile isWsC)).map (fun p => p.2)
      else none
    | [] => none

/-- `re.sub(r"\d{4}\s*[-–—]\s*\d{4}", "", s)`. -/
def subYearRangeAux : Nat → List Char → List Char
  | 0, l => l
  | _ + 1, [] => []
  | fuel + 1, c :: cs =>
    match yearRangeMatch (c :: cs) with
    | some r => subYearRangeAux fuel r
    | none => c :: subYearRangeAux fuel cs

def subYearRange (l : List Char) : List Char := subYearRangeAux l.length l

/-- `EducationExtractor._extract_degree`: first degree type (dict order) with
a keyword in the lowered text; then the first line containing any degree
keyword is stripped, cleaned of `\|\s*\d{4}` and `\d{4}\s*[-–—]\s*\d{4}` and
truncated to 150 characters; otherwise the capitalized degree type. -/
def extract_degree (text : List Char) : Option (List Char) :=
  let text_lower := pyLower text
  match degreePatterns.find? (fun dp => dp.2.any (fun p => containsSub text_lower p)) with
  | none => none
  | some dp =>
    match (splitNl text).find? (fun line =>
        allDegreePats.any (fun p => containsSub (pyLower line) p)) with
    | some line => some ((subYearRange (subPipeYear (stripWs line))).take 150)
    | none => some (pyCapitalize dp.1)

/-- `INSTITUTION_HINTS`. -/
def institutionHints : List (List Char) :=
  ["universidade".data, "university".data, "faculdade".data, "college".data,
   "instituto".data, "institute".data, "school".data, "academy".data,
   "polytechnic".data, "centro universitário".data, "ifal".data, "uf".data,
   "puc".data, "federal".data]

/-- `re.sub(r"\d{4}", "", s)`: delete every non-overlapping 4-digit run. -/
def subYear4Aux : Nat → List Char → List Char
  | 0, l => l
  | _ + 1, [] => []
  | fuel + 1, c :: cs =>
    match year4 (c :: cs) with
    | some (_, r) => subYear4Aux fuel r
    | none => c :: subYear4Aux fuel cs

def subYear4 (l : List Char) : List Char := subYear4Aux l.length l

def isDashPipe (c : Char) : Bool := c = '|' ∨ c = '-' ∨ c = '–' ∨ c = '—'

/-- `re.sub(r"[|\-–—]\s*$", "", s)`: the leftmost (hence only) match starts at
the first `[|\-–—]` character followed only by whitespace; everything from
there on is removed. -/
def subTrailDash : List Char → List Char
  | [] => []
  | c :: cs =>
    if isDashPipe c && cs.all isWsC then []
    else c :: subTrailDash cs

def isAsciiLetter (c : Char) : Bool :=
  ('A' ≤ c ∧ c ≤ 'Z') ∨ ('a' ≤ c ∧ c ≤ 'z')

/-- Python `str.isupper()` on a token of ASCII letters (the output of
`re.sub(r"[^A-Za-z]", "", line)`): non-empty and all uppercase. -/
def pyIsUpperToken (t : List Char) : Bool :=
  !t.isEmpty && t.all (fun c => 'A' ≤ c ∧ c ≤ 'Z')

/-- `EducationExtractor._extract_institution`: the first line with an
institution hint is cleaned of 4-digit runs and a trailing `[|\-–—]\s*$`,
stripped and truncated to 120; otherwise a line whose ASCII-letter content is
a 2-6 letter uppercase acronym is stripped and truncated to 60. -/
def extract_institution (lines : List (List Char)) : Option (List Char) :=
  lines.findSome? (fun line =>
    if institutionHints.any (fun h => containsSub (pyLower line) h) then
      some ((stripWs (subTrailDash (subYear4 line))).take 120)
    else
      let token := line.filter isAsciiLetter
      if pyIsUpperToken token && decide (2 ≤ token.length) && decide (token.length ≤ 6) then
        some ((stripWs line).take 60)
      else none)

/-- Length of a `\s*[|•]\s*` separator starting exactly at the head of `l`
(`re.split`'s pattern in `_parse_education_block`). -/
def pbSepLen (l : List Char) : Option Nat :=
  let w1 := l.takeWhile isWsC
  match l.drop w1.length with
  | c :: rest =>
    if c = '|' ∨ c = '•' then some (w1.length + 1 + (rest.takeWhile isWsC).length)
    else none
  | [] => none

/-- `re.split(r"\s*[|•]\s*", s)`: split at each leftmost non-overlapping
separator match.  Fuel-based; each step consumes at least one character. -/
def splitPB : Nat → List Char → List (List Char)
  | 0, l => [l]
  | _ + 1, [] => [[]]
  | fuel + 1, c :: cs =>
    match pbSepLen (c :: cs) with
    | some n => [] :: splitPB fuel ((c :: cs).drop n)
    | none =>
      match splitPB fuel cs with
      | [] => [[c]]
      | part :: rest => (c :: part) :: rest

/-- Python `str.strip(chars)` for a set of characters. -/
def stripSet (s : List Char) (l : List Char) : List Char :=
  ((l.dropWhile (fun c => s.contains c)).reverse.dropWhile
    (fun c => s.contains c)).reverse

/-- Python truthiness of an optional string (`None` and `""` are falsy). -/
def pyFalsyS (o : Option (List Char)) : Bool :=
  match o with
  | none => true
  | some s => s.isEmpty

/-- The `noise_terms` of `_parse_education_block`. -/
def noiseTerms : List (List Char) :=
  ["conhecimento".data, "habilidade".data, "skill".data, "competência".data,
   "competencia".data]

/-- `EducationExtractor._parse_education_block` (with `datetime.now().year`
passed as `cy`).  `institution` starts as `None`, so the structured-parts
branch always assigns `parts[1]` when there are at least two parts; the
`if not institution` / `if not degree` truthiness checks also treat the empty
string as missing (`pyFalsyS`). -/
def parse_education_block (cy : ℤ) (block : List Char) : Option Education :=
  let lines := ((splitNl block).map stripWs).filter (fun l => !l.isEmpty)
  if lines.isEmpty then none
  else
    let first := lines.headD []
    let structured_parts :=
      ((splitPB first.length first).filter (fun p => !(stripWs p).isEmpty)).map
        (fun p => stripSet ("-• ".data) p)
    let primary_line :=
      if 2 ≤ structured_parts.length then
        List.intercalate (" | ".data) structured_parts
      else first
    let degree0 := extract_degree primary_line
    let year0 := edu_extract_year cy block
    let status := extract_status cy block
    let degree1 :=
      if 2 ≤ structured_parts.length ∧ pyFalsyS degree0 then
        some (structured_parts.headD [])
      else degree0
    let institution1 : Option (List Char) :=
      if 2 ≤ structured_parts.length then some (structured_parts.getD 1 [])
      else none
    let year1 :=
      if 3 ≤ structured_parts.length ∧ year0 = none then
        edu_extract_year cy (List.intercalate (" ".data) (structured_parts.drop 2))
      else year0
    let institution2 :=
      if pyFalsyS institution1 then
        extract_institution (if 1 < lines.length then lines.tail else lines)
      else institution1
    let block_lower := pyLower (List.intercalate (" ".data) lines)
    if pyFalsyS degree1 then none
    else if pyFalsyS institution2 ∧ year1 = none ∧
        noiseTerms.any (fun t => containsSub block_lower t) then none
    else
      some { degree := degree1.getD [], institution := institution2,
             completion_year := year1.map (fun y => (Nat.repr y).data),
             status := status }

/-- The education block of claim C5. -/
def blockC5 : List Char :=
  "Bacharelado em Ciência da Computação | UFAL | 2015-2019".data

/-- The Education that `_parse_education_block` produces for `blockC5`. -/
def eduC5 : Education :=
  { degree := "Bacharelado em Ciência da Computação | UFAL -2019".data,
    institution := some ("UFAL".data),
    completion_year := some ("2019".data),
    status := "completed".data }

/-- C5: parsing the education block
`"Bacharelado em Ciência da Computação | UFAL | 2015-2019"` (in any year from
2019 on) yields an Education whose degree contains `"Bacharelado"`, whose
institution is `"UFAL"`, whose completion_year is `"2019"` and whose status is
`"completed"`. -/
theorem C5_education_block (cy : ℤ) (h : 2019 ≤ cy) :
    parse_education_block cy blockC5 = some eduC5 ∧
    containsSub eduC5.degree ("Bacharelado".data) = true ∧
    eduC5.institution = some ("UFAL".data) ∧
    eduC5.completion_year = some ("2019".data) ∧
    eduC5.status = "completed".data := by
  have hok : yearOk cy 2019 = true := by
    unfold yearOk
    rw [decide_eq_true_eq]
    exact ⟨by norm_num, by omega⟩
  have hds : eduDateSearch blockC5 = some (EndTok.yr 2019 ("2019".data)) := by
    decide
  have hfy : findSingleYear ("2019".data) = some 2019 := by decide
  have hyear : edu_extract_year cy blockC5 = some 2019 := by
    simp +decide only [edu_extract_year, hds, endTokText, sanitize_year_token,
      hfy, hok, if_true, if_false]
  have hkwnone : statusPatterns.find?
      (fun sp => sp.2.any (fun p => containsSub (pyLower blockC5) p)) = none := by
    decide
  have hstat : extract_status cy blockC5 = "completed".data := by
    simp +decide only [extract_status, hkwnone, hyear]
    rw [if_pos (by omega : ((2019 : ℕ) : ℤ) ≤ cy)]
  refine ⟨?_, by decide, rfl, rfl, rfl⟩
  simp +decide only [parse_education_block, hyear, hstat, if_true, if_false,
    false_and, and_false, true_and, and_true]

/-- C5 witness: the block parsed in the concrete year 2026. -/
theorem C5_witness :
    (2019 ≤ (2026 : ℤ)) ∧
    (parse_education_block 2026 blockC5 = some eduC5 ∧
     containsSub eduC5.degree ("Bacharelado".data) = true ∧
     eduC5.institution = some ("UFAL".data) ∧
     eduC5.completion_year = some ("2019".data) ∧
     eduC5.status = "completed".data) :=
  ⟨by decide, C5_education_block 2026 (by decide)⟩

/-- C10: for any education text containing none of the configured status
keywords (on the lowered text) and from which `_extract_year` extracts no
plausible year, `_extract_status` returns `"completed"` — never
`"in_progress"` or `"incomplete"`. -/
theorem C10_default_status (cy : ℤ) (text : List Char)
    (hkw : ∀ sp ∈ statusPatterns, ∀ p ∈ sp.2,
      containsSub (pyLower text) p = false)
    (hyr : edu_extract_year cy text = none) :
    extract_status cy text = "completed".data := by
  have hfind : statusPatterns.find?
      (fun sp => sp.2.any (fun p => containsSub (pyLower text) p)) = none := by
    rw [List.find?_eq_none]
    intro sp hsp hany
    rcases List.any_eq_true.mp hany with ⟨p, hp, hc⟩
    rw [hkw sp hsp p hp] at hc
    exact Bool.false_ne_true hc
  simp only [extract_status, hfind, hyr]

/-- The status-free, year-free education text of the C10 witness. -/
def textC10 : List Char := "bacharelado em computacao | ufal".data

/-- C10 witness: a concrete block with no status keyword and no year defaults
to status `"completed"` (current year 2026). -/
theorem C10_witness :
    ((∀ sp ∈ statusPatterns, ∀ p ∈ sp.2,
       containsSub (pyLower textC10) p = false) ∧
     edu_extract_year 2026 textC10 = none) ∧
    extract_status 2026 textC10 = "completed".data :=
  ⟨⟨by decide, by decide⟩, C10_default_status 2026 textC10 (by decide) (by decide)⟩

end ProjetoIA
